import Mathlib

/-!
# Textbook RSA in Go: a shallow embedding of `rsa_manual.go` and `benchmark_manual.go`

`*big.Int` values are Lean integers, Go panics are `Except.error`, and the loops of the
source are recursive functions.  The standard-library calls the source makes
(`big.Int.Mod`, `big.Int.ModInverse`, `rand.Prime`, `time.Now`) are modelled next to
the function that calls them.
-/

namespace RSAManual

/-! ## Data model -/

/-- The ways a call can abort (a Go panic), plus the exhaustion of the loop budget that
the embedding of `modPow` carries. -/
inductive Failure where
  | divisionByZero
  | primeGeneration
  | noModularInverse
  | indexOutOfRange
  | operationPanic
  | outOfFuel
  | nilDereference
  deriving DecidableEq, Repr

/-- Decidable equality of results, so that closed instances evaluate. -/
instance instDecidableEqExcept {ε α : Type} [DecidableEq ε] [DecidableEq α] :
    DecidableEq (Except ε α)
  | .ok a, .ok b =>
    if h : a = b then isTrue (h ▸ rfl) else isFalse (fun h2 => h (Except.ok.inj h2))
  | .error a, .error b =>
    if h : a = b then isTrue (h ▸ rfl) else isFalse (fun h2 => h (Except.error.inj h2))
  | .ok _, .error _ => isFalse (fun h => Except.noConfusion h)
  | .error _, .ok _ => isFalse (fun h => Except.noConfusion h)

/-- The struct `RSAKey` of `rsa_manual.go`: modulus, public exponent, private exponent. -/
structure RSAKey where
  N : Int
  E : Int
  D : Int
  deriving DecidableEq, Repr

/-! ## Modular exponentiation (`rsa_manual.go`, lines 55-84) -/

/-- The `for exp.Cmp(0) > 0` loop of `modPow`.  `big.Int.Mod` is the Euclidean modulus,
`And(exp, 1)` is `Int.land`, `Rsh(exp, 1)` is `Int.shiftRight`.  The first argument
bounds the number of iterations; `modPow` passes the exponent itself. -/
def modPowLoop : Nat → Int → Int → Int → Int → Except Failure Int
  | fuel, result, base, exp, modulus =>
    if exp > 0 then
      match fuel with
      | 0 => .error .outOfFuel
      | fuel + 1 =>
        let result := if Int.land exp 1 = 1 then (result * base) % modulus else result
        modPowLoop fuel result ((base * base) % modulus) (Int.shiftRight exp 1) modulus
    else .ok result

/-- The function `modPow`.  The early return for modulus 1 comes first; `Mod(base, modulus)`
on line 62 panics on a zero modulus. -/
def modPow (base exponent modulus : Int) : Except Failure Int :=
  if modulus = 1 then .ok 0
  else if modulus = 0 then .error .divisionByZero
  else modPowLoop exponent.toNat 1 (base % modulus) exponent modulus

/-- The function `Encrypt`: `modPow(message, key.E, key.N)`. -/
def Encrypt (message : Int) (key : RSAKey) : Except Failure Int :=
  modPow message key.E key.N

/-- The function `Decrypt`: `modPow(ciphertext, key.D, key.N)`. -/
def Decrypt (ciphertext : Int) (key : RSAKey) : Except Failure Int :=
  modPow ciphertext key.D key.N

/-! ## Key generation (`rsa_manual.go`, lines 17-53) -/

/-- The outcomes of the successive calls `rand.Prime(rand.Reader, bits)` of one run: the
call number `k` (counted from 0) delivers `src k`, and `none` stands for an error of the
random reader. -/
abbrev PrimeSource := Nat → Option Int

/-- What `crypto/rand.Prime` delivers for a bit length of at least 2: a prime of exactly
that many bits whose two most significant bits are set (the library sets them before it
tests the candidate). -/
def IsRandPrime (bits : Int) (p : Int) : Prop :=
  2 ≤ bits ∧ Nat.Prime p.toNat ∧ 3 * 2 ^ (bits.toNat - 2) ≤ p ∧ p < 2 ^ bits.toNat

instance (bits p : Int) : Decidable (IsRandPrime bits p) := by
  unfold IsRandPrime
  infer_instance

/-- The function `generatePrime`: one call of `rand.Prime`, which fails for fewer than 2
bits or on a reader error; the failure is a panic.  The third argument counts the calls of
`rand.Prime` made so far. -/
def generatePrime (src : PrimeSource) (bits : Int) (calls : Nat) :
    Except Failure (Int × Nat) :=
  if bits < 2 then .error .primeGeneration
  else
    match src calls with
    | none => .error .primeGeneration
    | some candidate => .ok (candidate, calls + 1)

/-- Euclid's algorithm on the remainders `r0, r1`, carrying for each remainder the
coefficient `s` with `r ≡ g * s` modulo the starting modulus. -/
def egcdLoop : Nat → Int → Int → Int → Int → Int × Int
  | 0, r0, _, s0, _ => (r0, s0)
  | fuel + 1, r0, r1, s0, s1 =>
    if r1 = 0 then (r0, s0)
    else egcdLoop fuel r1 (r0 % r1) s1 (s0 - (r0 / r1) * s1)

/-- The method `(*big.Int).ModInverse(g, n)` of the Go standard library, after its
documentation: a negative `n` is replaced by `-n`, a negative `g` by `g mod n` (a division
by zero when `n = 0`), the result is nil (`none`) when `g` and `n` are not relatively
prime, and the inverse of `g` in the range `0 ≤ z < |n|` otherwise. -/
def ModInverse (g n : Int) : Except Failure (Option Int) :=
  let n := if n < 0 then -n else n
  if g < 0 ∧ n = 0 then .error .divisionByZero
  else
    let g := if g < 0 then g % n else g
    let dx := egcdLoop n.toNat g n 1 0
    if dx.1 ≠ 1 then .ok none
    else .ok (some (dx.2 % n))

/-- The function `NewRSAKey`; `bits / 2` is Go's truncated division.  Returns the key
together with the number of `rand.Prime` calls made so far. -/
def NewRSAKey (src : PrimeSource) (bits : Int) (calls : Nat) :
    Except Failure (RSAKey × Nat) :=
  match generatePrime src (Int.tdiv bits 2) calls with
  | .error f => .error f
  | .ok (p, calls1) =>
    match generatePrime src (Int.tdiv bits 2) calls1 with
    | .error f => .error f
    | .ok (q, calls2) =>
      let n := p * q
      let phi := (p - 1) * (q - 1)
      let e : Int := 65537
      match ModInverse e phi with
      | .error f => .error f
      | .ok none => .error .noModularInverse
      | .ok (some d) => .ok ({ N := n, E := e, D := d }, calls2)

/-! ## Benchmark harness (`benchmark_manual.go`, lines 12-62) -/

/-- The `float64` operations `runBenchmark` uses, taken as a parameter. -/
structure FloatOps (F : Type) where
  zero : F
  ofInt : Int → F
  add : F → F → F
  sub : F → F → F
  mul : F → F → F
  div : F → F → F
  sqrt : F → F
  lt : F → F → Bool

/-- The state of a benchmark run: the state `operation` acts on, the number of
invocations of `operation`, the number of readings of the monotonic clock, and the slice
`times`. -/
structure Bench (σ F : Type) where
  state : σ
  calls : Nat
  reads : Nat
  times : List F
  deriving DecidableEq

/-- The map `stats` returned by `runBenchmark`, one field per key. -/
structure Stats (F : Type) where
  mean_ns : F
  std_dev_ns : F
  min_ns : F
  max_ns : F
  total_ns : F

/-- The measuring loop `for i := 0; i < iterations; i++` of `runBenchmark`.  `operation`
returns `none` when it panics; `clock k` is reading number `k` of the monotonic clock in
nanoseconds, `time.Now()` and `time.Since(start)` taking one reading each.  The progress
lines printed every tenth iteration are not modelled.  The first argument bounds the
number of iterations; `runBenchmark` passes `iterations`. -/
def benchLoop {σ F : Type} (ops : FloatOps F) (operation : σ → Option σ) (clock : Nat → Int)
    (iterations : Int) : Nat → Int → Bench σ F → Except Failure (Bench σ F)
  | fuel, i, b =>
    if i < iterations then
      match fuel with
      | 0 => .error .outOfFuel
      | fuel + 1 =>
        let start := clock b.reads
        match operation b.state with
        | none => .error .operationPanic
        | some s =>
          let duration := clock (b.reads + 1) - start
          benchLoop ops operation clock iterations fuel (i + 1)
            { state := s, calls := b.calls + 1, reads := b.reads + 2,
              times := b.times ++ [ops.ofInt duration] }
    else .ok b

/-- The statistics part of `runBenchmark` (lines 29-61) on the collected slice; the index
expression `times[0]` panics on an empty slice. -/
def computeStats {F : Type} (ops : FloatOps F) (times : List F) : Except Failure (Stats F) :=
  let total := times.foldl ops.add ops.zero
  let mean := ops.div total (ops.ofInt times.length)
  let variance :=
    times.foldl (fun v t => ops.add v (ops.mul (ops.sub t mean) (ops.sub t mean))) ops.zero
  let variance := ops.div variance (ops.ofInt times.length)
  let stdDev := ops.sqrt variance
  match times with
  | [] => .error .indexOutOfRange
  | t0 :: _ =>
    let mm := times.foldl
      (fun (mm : F × F) t =>
        (if ops.lt t mm.1 then t else mm.1, if ops.lt mm.2 t then t else mm.2)) (t0, t0)
    .ok { mean_ns := mean, std_dev_ns := stdDev, min_ns := mm.1, max_ns := mm.2,
          total_ns := total }

/-- The function `runBenchmark`: the measuring loop from an empty slice, then the
statistics.  Returns the map together with the final state of the run. -/
def runBenchmark {σ F : Type} (ops : FloatOps F) (operation : σ → Option σ)
    (clock : Nat → Int) (iterations : Int) (init : σ) (reads : Nat) :
    Except Failure (Stats F × Bench σ F) :=
  match benchLoop ops operation clock iterations iterations.toNat 0
      { state := init, calls := 0, reads := reads, times := [] } with
  | .error f => .error f
  | .ok b =>
    match computeStats ops b.times with
    | .error f => .error f
    | .ok stats => .ok (stats, b)

/-- The sample of iteration `j` of a loop that starts with `reads` clock readings taken:
the difference of the readings `reads + 2 * j + 1` and `reads + 2 * j`, as a `float64`. -/
def sampleAt {F : Type} (ops : FloatOps F) (clock : Nat → Int) (reads j : Nat) : F :=
  ops.ofInt (clock (reads + 2 * j + 1) - clock (reads + 2 * j))

/-- Exact integer arithmetic as an instance of the operations, used to run the harness on
concrete inputs. -/
def intOps : FloatOps Int where
  zero := 0
  ofInt := fun x => x
  add := fun x y => x + y
  sub := fun x y => x - y
  mul := fun x y => x * y
  div := fun x y => x / y
  sqrt := fun x => (Int.toNat x).sqrt
  lt := fun x y => decide (x < y)

/-! ## `modPow` on `*big.Int` references (`rsa_manual.go`, lines 55-84)

The functions above take the values of the `big.Int` arguments.  The ones below take the
pointers: a heap is the list of all `big.Int` objects allocated so far, an address is a
position in it, `big.NewInt(c)` and `new(big.Int).Op(..)` append a cell, and a method with
an existing receiver (`exp.Rsh(exp, 1)`) overwrites the receiver's cell. -/

/-- A `*big.Int`: the position of the object in the heap. -/
abbrev Addr := Nat

/-- The `big.Int` objects allocated so far. -/
abbrev Heap := List Int

/-- Reading through a pointer; a pointer to no object is a nil dereference. -/
def Heap.read (h : Heap) (a : Addr) : Except Failure Int :=
  match h[a]? with
  | some v => .ok v
  | none => .error .nilDereference

/-- Allocation of a new object holding `v`: its address and the extended heap. -/
def Heap.alloc (h : Heap) (v : Int) : Addr × Heap :=
  (h.length, h ++ [v])

/-- Overwriting the object at address `a`. -/
def Heap.write (h : Heap) (a : Addr) (v : Int) : Heap :=
  h.set a v

/-- The expression `new(big.Int).Mod(new(big.Int).Mul(x, y), modulus)`: two allocations, the
product and its Euclidean remainder; `Mod` panics on a zero modulus. -/
def mulMod (h : Heap) (x y modulus : Addr) : Except Failure (Addr × Heap) :=
  match Heap.read h x with
  | .error f => .error f
  | .ok xv =>
    match Heap.read h y with
    | .error f => .error f
    | .ok yv =>
      let h := (Heap.alloc h (xv * yv)).2
      match Heap.read h modulus with
      | .error f => .error f
      | .ok m =>
        if m = 0 then .error .divisionByZero
        else .ok (Heap.alloc h ((xv * yv) % m))

/-- The loop of `modPow` on references.  The variables `result` and `base` are rebound to
newly allocated objects; the only object written in place is the one `exp` points to. -/
def modPowRefLoop : Nat → Heap → Addr → Addr → Addr → Addr → Except Failure (Addr × Heap)
  | fuel, h, result, base, exp, modulus =>
    let h := (Heap.alloc h 0).2
    match Heap.read h exp with
    | .error f => .error f
    | .ok e =>
      if e > 0 then
        match fuel with
        | 0 => .error .outOfFuel
        | fuel + 1 =>
          let h := (Heap.alloc h 1).2
          let h := (Heap.alloc h (Int.land e 1)).2
          let h := (Heap.alloc h 1).2
          match (if Int.land e 1 = 1 then mulMod h result base modulus
                 else .ok (result, h)) with
          | .error f => .error f
          | .ok (result, h) =>
            let h := Heap.write h exp (Int.shiftRight e 1)
            match mulMod h base base modulus with
            | .error f => .error f
            | .ok (base, h) => modPowRefLoop fuel h result base exp modulus
      else .ok (result, h)

/-- The function `modPow` on references: `base = new(big.Int).Mod(base, modulus)` rebinds
the local variable to a new object, and `exp := new(big.Int).Set(exponent)` is a copy. -/
def modPowRef (h : Heap) (base exponent modulus : Addr) : Except Failure (Addr × Heap) :=
  let h := (Heap.alloc h 1).2
  match Heap.read h modulus with
  | .error f => .error f
  | .ok m =>
    if m = 1 then .ok (Heap.alloc h 0)
    else
      let rh := Heap.alloc h 1
      match Heap.read rh.2 base with
      | .error f => .error f
      | .ok b =>
        if m = 0 then .error .divisionByZero
        else
          let bh := Heap.alloc rh.2 (b % m)
          match Heap.read bh.2 exponent with
          | .error f => .error f
          | .ok e =>
            let eh := Heap.alloc bh.2 e
            modPowRefLoop e.toNat eh.2 rh.1 bh.1 eh.1 modulus

/-- An `RSAKey` whose three fields are pointers, as in the source. -/
structure RSAKeyRef where
  N : Addr
  E : Addr
  D : Addr
  deriving DecidableEq, Repr

/-- The function `Encrypt` on references. -/
def EncryptRef (h : Heap) (message : Addr) (key : RSAKeyRef) : Except Failure (Addr × Heap) :=
  modPowRef h message key.E key.N

/-- The function `Decrypt` on references. -/
def DecryptRef (h : Heap) (ciphertext : Addr) (key : RSAKeyRef) :
    Except Failure (Addr × Heap) :=
  modPowRef h ciphertext key.D key.N

/-- The call `op` made `n` times in a row, each on the heap the previous call left; the
values of the returned objects are collected in call order. -/
def repeatCall (op : Heap → Except Failure (Addr × Heap)) :
    Nat → Heap → Except Failure (List Int × Heap)
  | 0, h => .ok ([], h)
  | n + 1, h =>
    match op h with
    | .error f => .error f
    | .ok (c, h1) =>
      match Heap.read h1 c with
      | .error f => .error f
      | .ok v =>
        match repeatCall op n h1 with
        | .error f => .error f
        | .ok (vs, h2) => .ok (v :: vs, h2)

/-- A run on references agrees with a run on values, seen from the heap `h0` of the caller:
both abort in the same way, or the run on references returns an object holding the value
and leaves every object of `h0` as it was. -/
def Agrees (h0 : Heap) (onValues : Except Failure Int)
    (onRefs : Except Failure (Addr × Heap)) : Prop :=
  match onValues, onRefs with
  | .ok v, .ok (r, h) => h0 <+: h ∧ h[r]? = some v
  | .error f, .error g => f = g
  | _, _ => False

/-! ## A model of `float64` (IEEE 754 binary64)

The statistics of `runBenchmark` are computed in `float64`.  The model below has the finite
values, the two infinities and NaN, and rounds every operation to nearest, ties to even, as
Go does.  The sign of zero is not modelled. -/

/-- A `float64`: the finite value `m * 2 ^ e` with `|m| < 2 ^ 53`, `-1074 ≤ e ≤ 971` and
`2 ^ 52 ≤ |m|` unless `e = -1074`, an infinity, or NaN. -/
inductive F64 where
  | finite (m : Int) (e : Int)
  | inf (negative : Bool)
  | nan
  deriving DecidableEq, Repr

/-- Halving until the number is below 2; the first argument bounds the number of steps. -/
def floorLog2Aux : Nat → Nat → Nat
  | 0, _ => 0
  | fuel + 1, n => if n < 2 then 0 else floorLog2Aux fuel (n / 2) + 1

/-- The integer `k` with `2 ^ k ≤ n < 2 ^ (k + 1)`, for positive `n`. -/
def floorLog2 (n : Nat) : Nat :=
  floorLog2Aux n n

/-- The integer `k` with `2 ^ k ≤ a / q < 2 ^ (k + 1)`, for positive `a` and `q`. -/
def ilog2Ratio (a q : Nat) : Int :=
  let d : Int := (floorLog2 a : Int) - (floorLog2 q : Int)
  if q * 2 ^ d.toNat ≤ a * 2 ^ (-d).toNat then d else d - 1

/-- The carry out of the 53-bit significand and the overflow to infinity, after rounding
to the integer `n` at the exponent `e`. -/
def F64.pack (negative : Bool) (n : Nat) (e : Int) : F64 :=
  let n1 := if n = 2 ^ 53 then 2 ^ 52 else n
  let e1 := if n = 2 ^ 53 then e + 1 else e
  if e1 > 971 then .inf negative
  else .finite (if negative then -(n1 : Int) else (n1 : Int)) e1

/-- Rounding of the exact value `± a / q` (`q > 0`) to the nearest `float64`, ties to the
even significand; values below `2 ^ (-1022)` are rounded on the subnormal grid. -/
def F64.round (negative : Bool) (a q : Nat) : F64 :=
  if a = 0 then .finite 0 (-1074)
  else
    let e := max (ilog2Ratio a q - 52) (-1074)
    let num := a * 2 ^ (-e).toNat
    let den := q * 2 ^ e.toNat
    let n0 := num / den
    let r := num % den
    let n :=
      if 2 * r < den then n0
      else if den < 2 * r then n0 + 1
      else if n0 % 2 = 0 then n0 else n0 + 1
    F64.pack negative n e

/-- Rounding of the exact dyadic value `s * 2 ^ e`. -/
def F64.ofDyadic (s : Int) (e : Int) : F64 :=
  F64.round (decide (s < 0)) (s.natAbs * 2 ^ e.toNat) (2 ^ (-e).toNat)

/-- The conversion `float64(i)` of an integer. -/
def F64.ofInt (i : Int) : F64 :=
  F64.round (decide (i < 0)) i.natAbs 1

/-- The zero of `float64`. -/
def F64.zero : F64 := .finite 0 (-1074)

/-- Negation. -/
def F64.neg : F64 → F64
  | .finite m e => .finite (-m) e
  | .inf b => .inf (!b)
  | .nan => .nan

/-- Addition, rounded; adding zero is exact. -/
def F64.add : F64 → F64 → F64
  | .finite m1 e1, .finite m2 e2 =>
    if m1 = 0 then .finite m2 e2
    else if m2 = 0 then .finite m1 e1
    else
      let e := min e1 e2
      F64.ofDyadic (m1 * 2 ^ (e1 - e).toNat + m2 * 2 ^ (e2 - e).toNat) e
  | .finite _ _, .inf b => .inf b
  | .inf b, .finite _ _ => .inf b
  | .inf a, .inf b => if a = b then .inf a else .nan
  | _, _ => .nan

/-- Subtraction, rounded. -/
def F64.sub (x y : F64) : F64 :=
  F64.add x (F64.neg y)

/-- Multiplication, rounded. -/
def F64.mul : F64 → F64 → F64
  | .finite m1 e1, .finite m2 e2 => F64.ofDyadic (m1 * m2) (e1 + e2)
  | .finite m _, .inf b => if m = 0 then .nan else .inf (xor (decide (m < 0)) b)
  | .inf b, .finite m _ => if m = 0 then .nan else .inf (xor (decide (m < 0)) b)
  | .inf a, .inf b => .inf (xor a b)
  | _, _ => .nan

/-- Division, rounded; a division by zero gives an infinity, or NaN for `0 / 0`. -/
def F64.div : F64 → F64 → F64
  | .finite m1 e1, .finite m2 e2 =>
    if m2 = 0 then (if m1 = 0 then .nan else .inf (decide (m1 < 0)))
    else
      F64.round (xor (decide (m1 < 0)) (decide (m2 < 0)))
        (m1.natAbs * 2 ^ (e1 - e2).toNat) (m2.natAbs * 2 ^ (e2 - e1).toNat)
  | .finite _ _, .inf _ => F64.zero
  | .inf b, .finite m _ => .inf (xor b (decide (m < 0)))
  | _, _ => .nan

/-- The integer square root, by deciding the bits of the root from the top. -/
def isqrtAux (n : Nat) : Nat → Nat → Nat
  | 0, acc => acc
  | b + 1, acc =>
    if (acc + 2 ^ b) * (acc + 2 ^ b) ≤ n then isqrtAux n b (acc + 2 ^ b)
    else isqrtAux n b acc

/-- The integer square root `⌊√n⌋`. -/
def isqrt (n : Nat) : Nat :=
  isqrtAux n (floorLog2 n / 2 + 1) 0

/-- The square root of the exact positive value `a / q`, rounded to nearest. -/
def F64.roundSqrt (a q : Nat) : F64 :=
  let e := ilog2Ratio a q / 2 - 52
  let num := a * 4 ^ (-e).toNat
  let den := q * 4 ^ e.toNat
  let n0 := isqrt (num / den)
  let n :=
    if 4 * num < (2 * n0 + 1) * (2 * n0 + 1) * den then n0
    else if (2 * n0 + 1) * (2 * n0 + 1) * den < 4 * num then n0 + 1
    else if n0 % 2 = 0 then n0 else n0 + 1
  F64.pack false n e

/-- The function `math.Sqrt`. -/
def F64.sqrt : F64 → F64
  | .finite m e =>
    if m < 0 then .nan
    else if m = 0 then F64.zero
    else F64.roundSqrt (m.natAbs * 2 ^ e.toNat) (2 ^ (-e).toNat)
  | .inf b => if b then .nan else .inf false
  | .nan => .nan

/-- The comparison `<`; false whenever an operand is NaN. -/
def F64.lt : F64 → F64 → Bool
  | .finite m1 e1, .finite m2 e2 =>
    decide (m1 * 2 ^ (e1 - min e1 e2).toNat < m2 * 2 ^ (e2 - min e1 e2).toNat)
  | .finite _ _, .inf b => !b
  | .inf b, .finite _ _ => b
  | .inf a, .inf b => a && !b
  | _, _ => false

/-- The `float64` operations of `runBenchmark`, in the model. -/
def binary64 : FloatOps F64 where
  zero := F64.zero
  ofInt := F64.ofInt
  add := F64.add
  sub := F64.sub
  mul := F64.mul
  div := F64.div
  sqrt := F64.sqrt
  lt := F64.lt

/-! ## Lemmas on `modPow` -/

theorem modPowLoop_zero (fuel : Nat) (result base modulus : Int) :
    modPowLoop fuel result base 0 modulus = .ok result := by
  unfold modPowLoop
  simp

theorem modPowLoop_step (fuel : Nat) (result base modulus : Int) (e : Nat) (he : 0 < e) :
    modPowLoop (fuel + 1) result base (e : Int) modulus =
      modPowLoop fuel (if e % 2 = 1 then (result * base) % modulus else result)
        ((base * base) % modulus) ((e / 2 : Nat) : Int) modulus := by
  have hpos : (e : Int) > 0 := by exact_mod_cast he
  have hland : Int.land (e : Int) 1 = ((e % 2 : Nat) : Int) := by
    show ((e &&& 1 : Nat) : Int) = _
    rw [Nat.and_one_is_mod]
  have hshift : Int.shiftRight (e : Int) 1 = ((e / 2 : Nat) : Int) := by
    show ((e >>> 1 : Nat) : Int) = _
    rw [Nat.shiftRight_eq_div_pow]
  rw [modPowLoop]
  simp only [hpos, if_true, hland, hshift]
  have : (((e % 2 : Nat) : Int) = 1) ↔ (e % 2 = 1) := by
    constructor
    · intro h; exact_mod_cast h
    · intro h; exact_mod_cast h
  simp only [this]

/-- The loop computes `result * base ^ e` reduced modulo `modulus`, for every budget that is
at least the exponent. -/
theorem modPowLoop_eq (modulus : Int) (hm : 1 < modulus) :
    ∀ (fuel e : Nat) (result base : Int), e ≤ fuel → 0 ≤ result → result < modulus →
      modPowLoop fuel result base (e : Int) modulus = .ok ((result * base ^ e) % modulus) := by
  intro fuel
  induction fuel with
  | zero =>
    intro e result base he h0 h1
    have : e = 0 := by omega
    subst this
    rw [Nat.cast_zero, modPowLoop_zero, pow_zero, mul_one, Int.emod_eq_of_lt h0 h1]
  | succ f ih =>
    intro e result base he h0 h1
    rcases Nat.eq_zero_or_pos e with h | h
    · subst h
      rw [Nat.cast_zero, modPowLoop_zero, pow_zero, mul_one, Int.emod_eq_of_lt h0 h1]
    · rw [modPowLoop_step f result base modulus e h]
      have hm0 : modulus ≠ 0 := by omega
      have hle : e / 2 ≤ f := by omega
      have hdecomp : e = 2 * (e / 2) + e % 2 := (Nat.div_add_mod e 2).symm
      by_cases hodd : e % 2 = 1
      · rw [if_pos hodd, ih (e / 2) _ _ hle (Int.emod_nonneg _ hm0)
          (Int.emod_lt_of_pos _ (by omega))]
        congr 1
        have key : (result * base % modulus) * (base * base % modulus) ^ (e / 2)
            ≡ result * base ^ e [ZMOD modulus] := by
          have h1 : result * base % modulus ≡ result * base [ZMOD modulus] :=
            Int.mod_modEq _ _
          have h2 : (base * base % modulus) ^ (e / 2) ≡ (base * base) ^ (e / 2)
              [ZMOD modulus] := (Int.mod_modEq _ _).pow _
          have h3 : result * base * (base * base) ^ (e / 2) = result * base ^ e := by
            conv_rhs => rw [hdecomp, hodd]
            rw [pow_succ, pow_mul, pow_two]
            ring
          rw [← h3]
          exact h1.mul h2
        exact key
      · rw [if_neg hodd, ih (e / 2) _ _ hle h0 h1]
        congr 1
        have hev : e % 2 = 0 := by omega
        have key : result * (base * base % modulus) ^ (e / 2)
            ≡ result * base ^ e [ZMOD modulus] := by
          have h2 : (base * base % modulus) ^ (e / 2) ≡ (base * base) ^ (e / 2)
              [ZMOD modulus] := (Int.mod_modEq _ _).pow _
          have h3 : result * (base * base) ^ (e / 2) = result * base ^ e := by
            conv_rhs => rw [hdecomp, hev]
            rw [add_zero, pow_mul, pow_two]
          rw [← h3]
          exact (Int.ModEq.refl result).mul h2
        exact key

/-- Closed form of `modPow` for a modulus of at least 1 and a non-negative exponent. -/
theorem modPow_eq (base : Int) (e : Nat) (modulus : Int) (hm : 1 ≤ modulus) :
    modPow base (e : Int) modulus = .ok ((base ^ e) % modulus) := by
  unfold modPow
  by_cases h1 : modulus = 1
  · subst h1
    simp
  · have hgt : 1 < modulus := by omega
    have h0 : modulus ≠ 0 := by omega
    rw [if_neg h1, if_neg h0, Int.toNat_natCast,
      modPowLoop_eq modulus hgt e e 1 (base % modulus) le_rfl (by omega) hgt, one_mul]
    congr 1
    exact (Int.mod_modEq base modulus).pow e

/-! ## Lemmas on `ModInverse` -/

theorem egcdLoop_spec (g n : Int) :
    ∀ (fuel a b : Nat) (s0 s1 : Int), b ≤ fuel →
      (a : Int) ≡ g * s0 [ZMOD n] → (b : Int) ≡ g * s1 [ZMOD n] →
      (egcdLoop fuel a b s0 s1).1 = (Nat.gcd a b : Int) ∧
        (egcdLoop fuel a b s0 s1).1 ≡ g * (egcdLoop fuel a b s0 s1).2 [ZMOD n] := by
  intro fuel
  induction fuel with
  | zero =>
    intro a b s0 s1 hb ha _
    have : b = 0 := by omega
    subst this
    simp only [egcdLoop, Nat.gcd_zero_right]
    exact ⟨trivial, ha⟩
  | succ f ih =>
    intro a b s0 s1 hb ha hb1
    rcases Nat.eq_zero_or_pos b with h | h
    · subst h
      simp only [egcdLoop, Nat.cast_zero, if_true, Nat.gcd_zero_right]
      exact ⟨trivial, ha⟩
    · have hne : (b : Int) ≠ 0 := by exact_mod_cast (Nat.pos_iff_ne_zero.mp h)
      have hmod : (a : Int) % (b : Int) = ((a % b : Nat) : Int) := by norm_cast
      have hlt : a % b < b := Nat.mod_lt _ h
      have hrem : ((a % b : Nat) : Int) ≡ g * (s0 - (a : Int) / (b : Int) * s1) [ZMOD n] := by
        have e1 : ((a % b : Nat) : Int) = (a : Int) - (b : Int) * ((a : Int) / (b : Int)) := by
          rw [← hmod, Int.emod_def]
        have e2 : g * (s0 - (a : Int) / (b : Int) * s1)
            = g * s0 - (g * s1) * ((a : Int) / (b : Int)) := by ring
        rw [e1, e2]
        exact ha.sub (hb1.mul_right _)
      have hrec := ih b (a % b) s1 (s0 - (a : Int) / (b : Int) * s1) (by omega) hb1 hrem
      have hunf : egcdLoop (f + 1) a b s0 s1
          = egcdLoop f b ((a % b : Nat) : Int) s1 (s0 - (a : Int) / (b : Int) * s1) := by
        rw [egcdLoop, if_neg hne, hmod]
      rw [hunf]
      refine ⟨?_, hrec.2⟩
      rw [hrec.1, Nat.gcd_comm a b, Nat.gcd_rec b a, Nat.gcd_comm]

/-- Unfolding of `ModInverse` for a non-negative `g` and `n`. -/
theorem ModInverse_unfold (g n : Int) (hg : 0 ≤ g) (hn : 0 ≤ n) :
    ModInverse g n =
      if (egcdLoop n.toNat g n 1 0).1 ≠ 1 then .ok none
      else .ok (some ((egcdLoop n.toNat g n 1 0).2 % n)) := by
  unfold ModInverse
  have h1 : ¬ n < 0 := by omega
  have h2 : ¬ g < 0 := by omega
  simp only [h1, h2, if_false, false_and]

theorem ModInverse_none (g n : Int) (hg : 0 ≤ g) (hn : 0 ≤ n) (h : Int.gcd g n ≠ 1) :
    ModInverse g n = .ok none := by
  rw [ModInverse_unfold g n hg hn]
  obtain ⟨a, rfl⟩ := Int.eq_ofNat_of_zero_le hg
  obtain ⟨b, rfl⟩ := Int.eq_ofNat_of_zero_le hn
  have hs := egcdLoop_spec (a : Int) (b : Int) b a b 1 0 le_rfl (by simp)
    (by simp [Int.ModEq])
  rw [Int.toNat_natCast, if_pos]
  rw [hs.1]
  intro hc
  apply h
  rw [Int.gcd_natCast_natCast]
  exact_mod_cast hc

theorem ModInverse_some (g n : Int) (hg : 0 ≤ g) (hn : 0 ≤ n) (h : Int.gcd g n = 1) :
    ∃ d, ModInverse g n = .ok (some d) ∧ g * d ≡ 1 [ZMOD n] ∧ (0 < n → 0 ≤ d ∧ d < n) := by
  rw [ModInverse_unfold g n hg hn]
  obtain ⟨a, rfl⟩ := Int.eq_ofNat_of_zero_le hg
  obtain ⟨b, rfl⟩ := Int.eq_ofNat_of_zero_le hn
  have hs := egcdLoop_spec (a : Int) (b : Int) b a b 1 0 le_rfl (by simp)
    (by simp [Int.ModEq])
  rw [Int.gcd_natCast_natCast] at h
  rw [Int.toNat_natCast]
  have hd1 : (egcdLoop b (a : Int) (b : Int) 1 0).1 = 1 := by
    rw [hs.1, h]; rfl
  refine ⟨(egcdLoop b (a : Int) (b : Int) 1 0).2 % (b : Int), ?_, ?_, ?_⟩
  · rw [if_neg (by simpa using hd1)]
  · have h2 := hs.2
    rw [hd1] at h2
    exact ((Int.ModEq.refl _).mul (Int.mod_modEq _ _)).trans h2.symm
  · intro hpos
    exact ⟨Int.emod_nonneg _ (by omega), Int.emod_lt_of_pos _ hpos⟩

/-! ## The arithmetic of RSA -/

/-- Fermat's little theorem in the form RSA uses: for a prime `r` and an exponent
`k = 1 + (r - 1) * t`, raising to the power `k` is the identity modulo `r`. -/
theorem pow_one_add_mul_modEq (r : Nat) (hr : r.Prime) (t : Nat) (m : Int) :
    m ^ (1 + (r - 1) * t) ≡ m [ZMOD (r : Int)] := by
  haveI : Fact r.Prime := ⟨hr⟩
  rw [← ZMod.intCast_eq_intCast_iff]
  push_cast
  by_cases hz : (m : ZMod r) = 0
  · rw [hz]
    simp
  · rw [pow_add, pow_one, pow_mul, ZMod.pow_card_sub_one_eq_one hz, one_pow, mul_one]

/-- An exponent congruent to 1 modulo `(p - 1) * (q - 1)` is `1 + (r - 1) * t` for each of
the two primes. -/
theorem exists_mul_of_modEq_one (r c : Nat) (k : Nat) (hk : 0 < k) (hr : 1 ≤ r)
    (h : (k : Int) ≡ 1 [ZMOD (((r : Int) - 1) * c)]) : ∃ t : Nat, k = 1 + (r - 1) * t := by
  have hd : ((r : Int) - 1) * c ∣ (k : Int) - 1 := (Int.modEq_iff_dvd.mp h.symm)
  have hd2 : ((r : Int) - 1) ∣ (k : Int) - 1 := Dvd.dvd.trans (Dvd.intro _ rfl) hd
  have e1 : ((r : Int) - 1) = ((r - 1 : Nat) : Int) := by omega
  have e2 : ((k : Int) - 1) = ((k - 1 : Nat) : Int) := by omega
  rw [e1, e2] at hd2
  obtain ⟨t, ht⟩ := Int.natCast_dvd_natCast.mp hd2
  exact ⟨t, by omega⟩

/-- The RSA identity: for distinct primes `p`, `q` and a positive `k ≡ 1` modulo
`(p - 1) * (q - 1)`, every integer satisfies `m ^ k ≡ m` modulo `p * q`. -/
theorem pow_modEq_self (p q : Nat) (hp : p.Prime) (hq : q.Prime) (hpq : p ≠ q)
    (k : Nat) (hk : 0 < k) (h : (k : Int) ≡ 1 [ZMOD (((p : Int) - 1) * ((q : Int) - 1))])
    (m : Int) : m ^ k ≡ m [ZMOD ((p : Int) * (q : Int))] := by
  have hq1 : ((q : Int) - 1) = ((q - 1 : Nat) : Int) := by
    have := hq.one_le; omega
  have hp1 : ((p : Int) - 1) = ((p - 1 : Nat) : Int) := by
    have := hp.one_le; omega
  obtain ⟨t, ht⟩ := exists_mul_of_modEq_one p (q - 1) k hk hp.one_le (by rw [← hq1]; exact h)
  obtain ⟨u, hu⟩ := exists_mul_of_modEq_one q (p - 1) k hk hq.one_le
    (by rw [← hp1, mul_comm]; exact h)
  have hcop : (p : Int).natAbs.Coprime (q : Int).natAbs := by
    simpa using (Nat.coprime_primes hp hq).mpr hpq
  refine (Int.modEq_and_modEq_iff_modEq_mul hcop).mp ⟨?_, ?_⟩
  · rw [ht]; exact pow_one_add_mul_modEq p hp t m
  · rw [hu]; exact pow_one_add_mul_modEq q hq u m

/-- Encrypting and then decrypting, under the key-pair invariants, reduces the message
modulo `N`, for every integer message. -/
theorem roundtrip_emod (key : RSAKey) (p q : Nat) (hp : p.Prime) (hq : q.Prime)
    (hpq : p ≠ q) (hN : key.N = (p : Int) * (q : Int)) (hE : 0 < key.E) (hD : 0 < key.D)
    (hED : key.E * key.D ≡ 1 [ZMOD (((p : Int) - 1) * ((q : Int) - 1))]) (m : Int) :
    Encrypt m key = .ok (m ^ key.E.toNat % key.N) ∧
      Decrypt (m ^ key.E.toNat % key.N) key = .ok (m % key.N) := by
  have hN1 : 1 ≤ key.N := by
    rw [hN]
    have h1 := hp.one_le
    have h2 := hq.one_le
    have : 1 ≤ p * q := Nat.one_le_iff_ne_zero.mpr (Nat.mul_ne_zero (by omega) (by omega))
    exact_mod_cast this
  obtain ⟨e, he⟩ := Int.eq_ofNat_of_zero_le hE.le
  obtain ⟨d, hd⟩ := Int.eq_ofNat_of_zero_le hD.le
  have he0 : 0 < e := by omega
  have hd0 : 0 < d := by omega
  unfold Encrypt Decrypt
  rw [he, hd, Int.toNat_natCast, modPow_eq m e key.N hN1, modPow_eq _ d key.N hN1]
  refine ⟨rfl, ?_⟩
  congr 1
  have hk : ((e * d : Nat) : Int) ≡ 1 [ZMOD (((p : Int) - 1) * ((q : Int) - 1))] := by
    rw [he, hd] at hED
    exact_mod_cast hED
  have h1 : (m ^ e % key.N) ^ d ≡ (m ^ e) ^ d [ZMOD key.N] := (Int.mod_modEq _ _).pow d
  have h2 : (m ^ e) ^ d ≡ m [ZMOD key.N] := by
    rw [← pow_mul, hN]
    exact pow_modEq_self p q hp hq hpq (e * d) (Nat.mul_pos he0 hd0) hk m
  exact h1.trans h2

/-! ## Modular exponentiation and the cipher: the specification's properties -/

/-- C2: for every integer base, every exponent at least 0 and every modulus at least 1,
`modPow` returns `base ^ exponent` reduced to the non-negative remainder modulo `modulus`,
which lies in `[0, modulus)`; the result is 0 for modulus 1, 1 for exponent 0 and a modulus
above 1, and `base mod modulus` for exponent 1. -/
theorem modPow_spec (base exponent modulus : Int) (he : 0 ≤ exponent) (hm : 1 ≤ modulus) :
    modPow base exponent modulus = .ok (base ^ exponent.toNat % modulus) ∧
      0 ≤ base ^ exponent.toNat % modulus ∧
      base ^ exponent.toNat % modulus < modulus ∧
      (modulus = 1 → modPow base exponent modulus = .ok 0) ∧
      (exponent = 0 → 1 < modulus → modPow base exponent modulus = .ok 1) ∧
      (exponent = 1 → modPow base exponent modulus = .ok (base % modulus)) := by
  obtain ⟨e, rfl⟩ := Int.eq_ofNat_of_zero_le he
  have hmain := modPow_eq base e modulus hm
  rw [Int.toNat_natCast]
  refine ⟨hmain, Int.emod_nonneg _ (by omega), Int.emod_lt_of_pos _ (by omega), ?_, ?_, ?_⟩
  · intro h1
    rw [hmain, h1, Int.emod_one]
  · intro h0 h1
    have : e = 0 := by exact_mod_cast h0
    rw [hmain, this, pow_zero, Int.emod_eq_of_lt (by omega) h1]
  · intro h1
    have : e = 1 := by exact_mod_cast h1
    rw [hmain, this, pow_one]

/-- Witness of C2 at base 12345, exponent 17, modulus 60491. -/
theorem modPow_spec_witness :
    modPow 12345 17 60491 = .ok ((12345 : Int) ^ (17 : Int).toNat % 60491) ∧
      (12345 : Int) ^ (17 : Int).toNat % 60491 = 41476 :=
  ⟨(modPow_spec 12345 17 60491 (by decide) (by decide)).1, by decide⟩

/-- C1: round trip.  For every key whose modulus is `p * q` for two distinct primes and
whose exponents are positive with `E * D ≡ 1` modulo `(p - 1) * (q - 1)`, and for every
message `0 ≤ m < N` (coprime to `N` or not), `Decrypt(Encrypt(m, key), key) = m`. -/
theorem decrypt_encrypt_roundtrip (key : RSAKey) (p q : Nat) (hp : p.Prime) (hq : q.Prime)
    (hpq : p ≠ q) (hN : key.N = (p : Int) * (q : Int)) (hE : 0 < key.E) (hD : 0 < key.D)
    (hED : key.E * key.D ≡ 1 [ZMOD (((p : Int) - 1) * ((q : Int) - 1))])
    (m : Int) (h0 : 0 ≤ m) (hm : m < key.N) :
    (Encrypt m key >>= fun c => Decrypt c key) = .ok m := by
  have h := roundtrip_emod key p q hp hq hpq hN hE hD hED m
  rw [h.1]
  show Decrypt (m ^ key.E.toNat % key.N) key = .ok m
  rw [h.2, Int.emod_eq_of_lt h0 hm]

/-- Witness of C1: `p = 251`, `q = 241`, `N = 60491`, `E = 17`, `D = 42353`, `m = 12345`. -/
theorem decrypt_encrypt_roundtrip_witness :
    Nat.Prime 251 ∧ Nat.Prime 241 ∧ (60491 : Int) = (251 : Nat) * (241 : Nat) ∧
      ((Encrypt 12345 ⟨60491, 17, 42353⟩ >>= fun c => Decrypt c ⟨60491, 17, 42353⟩)
        = .ok 12345) :=
  ⟨by norm_num, by norm_num, by decide,
    decrypt_encrypt_roundtrip ⟨60491, 17, 42353⟩ 251 241 (by norm_num) (by norm_num)
      (by decide) (by decide) (by decide) (by decide) (by decide) 12345 (by decide)
      (by decide)⟩

/-- C5: `Encrypt` and `Decrypt` do not reject an out-of-range input.  For every key with the
key-pair invariants, `Encrypt` and `Decrypt` return the modular power for every integer
input, inside `[0, N)` or not; and for every integer `m` outside `[0, N)`,
`Decrypt(Encrypt(m, key), key)` is `m mod N`, which differs from `m`. -/
theorem out_of_range_roundtrip (key : RSAKey) (p q : Nat) (hp : p.Prime) (hq : q.Prime)
    (hpq : p ≠ q) (hN : key.N = (p : Int) * (q : Int)) (hE : 0 < key.E) (hD : 0 < key.D)
    (hED : key.E * key.D ≡ 1 [ZMOD (((p : Int) - 1) * ((q : Int) - 1))])
    (m : Int) (hout : m < 0 ∨ key.N ≤ m) :
    (∃ c, Encrypt m key = .ok c) ∧
      (Encrypt m key >>= fun c => Decrypt c key) = .ok (m % key.N) ∧
      m % key.N ≠ m ∧
      (∀ x : Int, Encrypt x key = .ok (x ^ key.E.toNat % key.N)) ∧
      (∀ c : Int, Decrypt c key = .ok (c ^ key.D.toNat % key.N)) := by
  have h := roundtrip_emod key p q hp hq hpq hN hE hD hED m
  have hN0 : 0 < key.N := by
    rw [hN]
    have h1 := hp.pos
    have h2 := hq.pos
    have : 0 < p * q := Nat.mul_pos h1 h2
    exact_mod_cast this
  refine ⟨⟨_, h.1⟩, ?_, ?_, ?_, ?_⟩
  · rw [h.1]
    exact h.2
  · intro hc
    have h1 := Int.emod_nonneg m (show key.N ≠ 0 by omega)
    have h2 := Int.emod_lt_of_pos m hN0
    rw [hc] at h1 h2
    omega
  · intro x
    exact (roundtrip_emod key p q hp hq hpq hN hE hD hED x).1
  · intro c
    obtain ⟨d, hd⟩ := Int.eq_ofNat_of_zero_le hD.le
    unfold Decrypt
    rw [hd, Int.toNat_natCast]
    exact modPow_eq c d key.N (by omega)

/-- Witness of C5: the message and the ciphertext `60491 + 12345` under the key of the
concrete scenario. -/
theorem out_of_range_roundtrip_witness :
    ((60491 : Int) ≤ 72836) ∧
      ((Encrypt 72836 ⟨60491, 17, 42353⟩ >>= fun c => Decrypt c ⟨60491, 17, 42353⟩)
        = .ok (72836 % 60491)) ∧ (72836 : Int) % 60491 ≠ 72836 ∧
      Decrypt 72836 ⟨60491, 17, 42353⟩ = .ok ((72836 : Int) ^ (42353 : Int).toNat % 60491) :=
  have h := out_of_range_roundtrip ⟨60491, 17, 42353⟩ 251 241 (by norm_num) (by norm_num)
      (by decide) (by decide) (by decide) (by decide) (by decide) 72836
      (Or.inr (by decide))
  ⟨by decide, h.2.1, h.2.2.1, h.2.2.2.2 72836⟩

/-! ## Key generation: the specification's properties -/

theorem generatePrime_eq (src : PrimeSource) (bits : Int) (calls : Nat) (p : Int)
    (hb : 2 ≤ bits) (hp : src calls = some p) :
    generatePrime src bits calls = .ok (p, calls + 1) := by
  unfold generatePrime
  rw [if_neg (by omega), hp]

/-- With both primes delivered, `NewRSAKey` is decided by `ModInverse` alone. -/
theorem NewRSAKey_eq (src : PrimeSource) (bits : Int) (calls : Nat) (p q : Int)
    (hb : 2 ≤ Int.tdiv bits 2) (hp : src calls = some p) (hq : src (calls + 1) = some q) :
    NewRSAKey src bits calls =
      match ModInverse 65537 ((p - 1) * (q - 1)) with
      | .error f => .error f
      | .ok none => .error .noModularInverse
      | .ok (some d) => .ok ({ N := p * q, E := 65537, D := d }, calls + 2) := by
  unfold NewRSAKey
  rw [generatePrime_eq src _ calls p hb hp]
  simp only []
  rw [generatePrime_eq src _ (calls + 1) q hb hq]

/-- A prime delivered by `rand.Prime` is at least 3. -/
theorem IsRandPrime.three_le {bits p : Int} (h : IsRandPrime bits p) : 3 ≤ p := by
  obtain ⟨_, _, h3, _⟩ := h
  have : (1 : Int) ≤ 2 ^ (bits.toNat - 2) := one_le_pow₀ (by norm_num)
  omega

/-- The totient of two delivered primes is at least 4. -/
theorem four_le_phi {p q : Int} (hp : 3 ≤ p) (hq : 3 ≤ q) : 4 ≤ (p - 1) * (q - 1) := by
  nlinarith

/-- The three outcomes of `NewRSAKey` once both primes are delivered and at least 3. -/
theorem NewRSAKey_cases (src : PrimeSource) (bits : Int) (calls : Nat) (p q : Int)
    (hb : 2 ≤ Int.tdiv bits 2) (hp : src calls = some p) (hq : src (calls + 1) = some q)
    (hp3 : 3 ≤ p) (hq3 : 3 ≤ q) :
    (Int.gcd 65537 ((p - 1) * (q - 1)) ≠ 1 ∧
        NewRSAKey src bits calls = .error .noModularInverse) ∨
      (Int.gcd 65537 ((p - 1) * (q - 1)) = 1 ∧
        ∃ d, NewRSAKey src bits calls = .ok ({ N := p * q, E := 65537, D := d }, calls + 2) ∧
          65537 * d ≡ 1 [ZMOD ((p - 1) * (q - 1))] ∧ 0 < d ∧ d < (p - 1) * (q - 1)) := by
  have hphi := four_le_phi hp3 hq3
  rw [NewRSAKey_eq src bits calls p q hb hp hq]
  by_cases hg : Int.gcd 65537 ((p - 1) * (q - 1)) = 1
  · right
    obtain ⟨d, hd, hmod, hrange⟩ :=
      ModInverse_some 65537 ((p - 1) * (q - 1)) (by norm_num) (by omega) hg
    refine ⟨hg, d, by rw [hd], hmod, ?_, (hrange (by omega)).2⟩
    have h0 := (hrange (by omega)).1
    rcases lt_or_eq_of_le h0 with h | h
    · exact h
    · exfalso
      rw [← h, mul_zero] at hmod
      have h1 : (0 : Int) % ((p - 1) * (q - 1)) = 1 % ((p - 1) * (q - 1)) := hmod
      rw [Int.zero_emod, Int.emod_eq_of_lt (by norm_num) (by omega)] at h1
      exact absurd h1 (by norm_num)
  · left
    refine ⟨hg, ?_⟩
    rw [ModInverse_none 65537 ((p - 1) * (q - 1)) (by norm_num) (by omega) hg]

/-- A returning `NewRSAKey` was asked for at least 2 bits per prime and got both primes
delivered. -/
theorem NewRSAKey_ok_delivered (src : PrimeSource) (bits : Int) (calls calls' : Nat)
    (key : RSAKey) (hret : NewRSAKey src bits calls = .ok (key, calls')) :
    2 ≤ Int.tdiv bits 2 ∧ ∃ p q, src calls = some p ∧ src (calls + 1) = some q := by
  have hb : 2 ≤ Int.tdiv bits 2 := by
    by_contra hb
    unfold NewRSAKey generatePrime at hret
    rw [if_pos (by omega)] at hret
    exact Except.noConfusion hret
  refine ⟨hb, ?_⟩
  cases hp : src calls with
  | none =>
    unfold NewRSAKey generatePrime at hret
    rw [if_neg (by omega), hp] at hret
    exact Except.noConfusion hret
  | some p =>
    cases hq : src (calls + 1) with
    | none =>
      unfold NewRSAKey at hret
      rw [generatePrime_eq src _ calls p hb hp] at hret
      simp only [] at hret
      unfold generatePrime at hret
      rw [if_neg (by omega), hq] at hret
      exact Except.noConfusion hret
    | some q => exact ⟨p, q, rfl, rfl⟩

/-- The key of a returning `NewRSAKey`, in terms of the two delivered primes. -/
theorem NewRSAKey_ok_key (src : PrimeSource) (bits : Int) (calls calls' : Nat)
    (key : RSAKey) (p q : Int)
    (hret : NewRSAKey src bits calls = .ok (key, calls'))
    (hp : src calls = some p) (hq : src (calls + 1) = some q)
    (hp3 : 3 ≤ p) (hq3 : 3 ≤ q) :
    key.N = p * q ∧ key.E = 65537 ∧ 65537 * key.D ≡ 1 [ZMOD ((p - 1) * (q - 1))] ∧
      0 < key.D ∧ key.D < (p - 1) * (q - 1) ∧ calls' = calls + 2 := by
  have hb := (NewRSAKey_ok_delivered src bits calls calls' key hret).1
  rcases NewRSAKey_cases src bits calls p q hb hp hq hp3 hq3 with
    ⟨_, herr⟩ | ⟨_, d, hok, hmod, hd0, hd1⟩
  · rw [herr] at hret
    exact Except.noConfusion hret
  · rw [hok] at hret
    have hpair := Except.ok.inj hret
    have hkey : key = { N := p * q, E := 65537, D := d } := (congrArg Prod.fst hpair).symm
    have hcalls : calls' = calls + 2 := (congrArg Prod.snd hpair).symm
    subst hkey
    exact ⟨rfl, rfl, hmod, hd0, hd1, hcalls⟩

/-- C3: whenever `NewRSAKey(bits)` returns, with `p` and `q` the primes delivered by the two
`generatePrime(bits / 2)` calls, the key has `N = p * q`, `E = 65537` and
`(E * D) mod ((p - 1) * (q - 1)) = 1`. -/
theorem NewRSAKey_key_invariants (src : PrimeSource) (bits : Int) (calls calls' : Nat)
    (key : RSAKey) (p q : Int)
    (hret : NewRSAKey src bits calls = .ok (key, calls'))
    (hp : src calls = some p) (hq : src (calls + 1) = some q)
    (hP : IsRandPrime (Int.tdiv bits 2) p) (hQ : IsRandPrime (Int.tdiv bits 2) q) :
    key.N = p * q ∧ key.E = 65537 ∧ (key.E * key.D) % ((p - 1) * (q - 1)) = 1 := by
  have hphi := four_le_phi hP.three_le hQ.three_le
  obtain ⟨hN, hE, hmod, _, _, _⟩ :=
    NewRSAKey_ok_key src bits calls calls' key p q hret hp hq hP.three_le hQ.three_le
  refine ⟨hN, hE, ?_⟩
  have h1 : (65537 * key.D) % ((p - 1) * (q - 1)) = 1 % ((p - 1) * (q - 1)) := hmod
  rw [hE, h1, Int.emod_eq_of_lt (by norm_num) (by omega)]

/-- Witness of C3: `bits = 4`, both calls deliver the prime 3, the key is `(9, 65537, 1)`. -/
theorem NewRSAKey_key_invariants_witness :
    NewRSAKey (fun _ => some 3) 4 0 = .ok (⟨9, 65537, 1⟩, 2) ∧
      ((9 : Int) = 3 * 3 ∧ (65537 : Int) = 65537 ∧ (65537 * 1 : Int) % ((3 - 1) * (3 - 1)) = 1) :=
  ⟨by decide,
    NewRSAKey_key_invariants (fun _ => some 3) 4 0 2 ⟨9, 65537, 1⟩ 3 3 (by decide) rfl rfl
      (by decide) (by decide)⟩

/-- C4: for the primes `p` and `q` delivered inside `NewRSAKey`, the call aborts with the
modular-inverse failure exactly when `gcd(65537, (p - 1) * (q - 1)) ≠ 1`; when the gcd is 1
it returns the key `(p * q, 65537, d)` built from those same two primes, after exactly two
calls of `rand.Prime`, with `d` a positive inverse of 65537. -/
theorem NewRSAKey_abort_iff (src : PrimeSource) (bits : Int) (calls : Nat) (p q : Int)
    (hp : src calls = some p) (hq : src (calls + 1) = some q)
    (hP : IsRandPrime (Int.tdiv bits 2) p) (hQ : IsRandPrime (Int.tdiv bits 2) q) :
    (NewRSAKey src bits calls = .error .noModularInverse ↔
        Int.gcd 65537 ((p - 1) * (q - 1)) ≠ 1) ∧
      (Int.gcd 65537 ((p - 1) * (q - 1)) = 1 →
        ∃ d, NewRSAKey src bits calls = .ok ({ N := p * q, E := 65537, D := d }, calls + 2) ∧
          65537 * d ≡ 1 [ZMOD ((p - 1) * (q - 1))] ∧ 0 < d) := by
  rcases NewRSAKey_cases src bits calls p q hP.1 hp hq hP.three_le hQ.three_le with
    ⟨hg, herr⟩ | ⟨hg, d, hok, hmod, hd, _⟩
  · exact ⟨⟨fun _ => hg, fun _ => herr⟩, fun h => absurd h hg⟩
  · refine ⟨⟨fun h => ?_, fun h => absurd hg h⟩, fun _ => ⟨d, hok, hmod, hd⟩⟩
    rw [hok] at h
    exact Except.noConfusion h

/-- Witness of C4 on the aborting side: `bits = 40` and both calls deliver the 20-bit prime
`917519 = 14 * 65537 + 1`. -/
theorem NewRSAKey_abort_iff_witness :
    IsRandPrime (Int.tdiv 40 2) 917519 ∧
      NewRSAKey (fun _ => some 917519) 40 0 = .error .noModularInverse :=
  have hP : IsRandPrime (Int.tdiv 40 2) 917519 :=
    ⟨by decide, by show Nat.Prime 917519; norm_num, by decide, by decide⟩
  ⟨hP, (NewRSAKey_abort_iff (fun _ => some 917519) 40 0 917519 917519 rfl rfl hP hP).1.mpr
    (by decide)⟩

/-- Counterexample to C9 as stated: `NewRSAKey(4)` with both calls delivering the 2-bit
prime 3 returns the modulus 9, which is not a product of two distinct primes. -/
theorem NewRSAKey_distinct_primes_counterexample :
    IsRandPrime (Int.tdiv 4 2) 3 ∧
      NewRSAKey (fun _ => some 3) 4 0 = .ok (⟨9, 65537, 1⟩, 2) ∧
      ¬ ∃ p q : Nat, p.Prime ∧ q.Prime ∧ p ≠ q ∧ (9 : Int) = (p : Int) * (q : Int) := by
  refine ⟨by decide, by decide, ?_⟩
  rintro ⟨p, q, hp, hq, hne, h⟩
  have h9 : p * q = 3 * 3 := by exact_mod_cast h.symm
  have hp3 : p ∣ 3 * 3 := Dvd.intro _ h9
  have hq3 : q ∣ 3 * 3 := Dvd.intro_left _ h9
  have p3 : p = 3 := by
    rcases (Nat.Prime.dvd_mul hp).mp hp3 with h | h <;>
      exact (Nat.prime_dvd_prime_iff_eq hp Nat.prime_three).mp h
  have q3 : q = 3 := by
    rcases (Nat.Prime.dvd_mul hq).mp hq3 with h | h <;>
      exact (Nat.prime_dvd_prime_iff_eq hq Nat.prime_three).mp h
  exact hne (p3.trans q3.symm)

/-- C9, amended: every key returned by `NewRSAKey` has the modulus `N = p * q` where `p` and
`q` are the primes delivered by the two `generatePrime(bits / 2)` calls, in that order;
nothing makes them distinct. -/
theorem NewRSAKey_modulus (src : PrimeSource) (bits : Int) (calls calls' : Nat)
    (key : RSAKey)
    (hsrc : ∀ k x, src k = some x → IsRandPrime (Int.tdiv bits 2) x)
    (hret : NewRSAKey src bits calls = .ok (key, calls')) :
    ∃ p q : Nat, p.Prime ∧ q.Prime ∧ src calls = some (p : Int) ∧
      src (calls + 1) = some (q : Int) ∧ key.N = (p : Int) * (q : Int) := by
  obtain ⟨_, p, q, hp, hq⟩ := NewRSAKey_ok_delivered src bits calls calls' key hret
  have hP := hsrc calls p hp
  have hQ := hsrc (calls + 1) q hq
  have hN := (NewRSAKey_ok_key src bits calls calls' key p q hret hp hq
    hP.three_le hQ.three_le).1
  have hp0 : (p.toNat : Int) = p := Int.toNat_of_nonneg (by have := hP.three_le; omega)
  have hq0 : (q.toNat : Int) = q := Int.toNat_of_nonneg (by have := hQ.three_le; omega)
  exact ⟨p.toNat, q.toNat, hP.2.1, hQ.2.1, by rw [hp0, hp], by rw [hq0, hq],
    by rw [hp0, hq0, hN]⟩

/-- Witness of C9 as amended: `bits = 4`, both calls deliver 3. -/
theorem NewRSAKey_modulus_witness :
    ∃ p q : Nat, p.Prime ∧ q.Prime ∧ (fun _ => some 3 : PrimeSource) 0 = some (p : Int) ∧
      (fun _ => some 3 : PrimeSource) (0 + 1) = some (q : Int) ∧
      (⟨9, 65537, 1⟩ : RSAKey).N = (p : Int) * (q : Int) :=
  NewRSAKey_modulus (fun _ => some 3) 4 0 2 ⟨9, 65537, 1⟩
    (fun _ x hx => by
      have h3 : x = 3 := (Option.some.inj hx).symm
      subst h3
      decide)
    (by decide)

/-- Counterexample to C10 as stated: `NewRSAKey(4)` with both calls delivering 3 returns a
key whose public exponent 65537 is not below `(3 - 1) * (3 - 1) = 4`. -/
theorem NewRSAKey_exponent_range_counterexample :
    IsRandPrime (Int.tdiv 4 2) 3 ∧
      NewRSAKey (fun _ => some 3) 4 0 = .ok (⟨9, 65537, 1⟩, 2) ∧
      ¬ ((1 : Int) < (⟨9, 65537, 1⟩ : RSAKey).E ∧
          (⟨9, 65537, 1⟩ : RSAKey).E < (3 - 1) * (3 - 1) ∧
          0 < (⟨9, 65537, 1⟩ : RSAKey).D) := by
  refine ⟨by decide, by decide, by decide⟩

/-- C10, amended: every key returned by `NewRSAKey(bits)` satisfies `1 < E` and `D > 0`,
and `E < (p - 1) * (q - 1)` holds exactly when `bits ≥ 18`, where `p` and `q` are the
primes of `bits / 2` bits each that were used to build `N`. -/
theorem NewRSAKey_exponent_range (src : PrimeSource) (bits : Int) (calls calls' : Nat)
    (key : RSAKey) (p q : Int)
    (hret : NewRSAKey src bits calls = .ok (key, calls'))
    (hp : src calls = some p) (hq : src (calls + 1) = some q)
    (hP : IsRandPrime (Int.tdiv bits 2) p) (hQ : IsRandPrime (Int.tdiv bits 2) q) :
    1 < key.E ∧ 0 < key.D ∧ (key.E < (p - 1) * (q - 1) ↔ 18 ≤ bits) := by
  obtain ⟨_, hE, _, hD, _, _⟩ :=
    NewRSAKey_ok_key src bits calls calls' key p q hret hp hq hP.three_le hQ.three_le
  refine ⟨by rw [hE]; norm_num, hD, ?_⟩
  rw [hE]
  obtain ⟨hb, _, hplo, hphi⟩ := hP
  obtain ⟨_, _, hqlo, hqhi⟩ := hQ
  have hbits : 0 ≤ bits := by
    by_contra hneg
    have h1 : Int.tdiv bits 2 = -(Int.tdiv (-bits) 2) := by rw [Int.neg_tdiv, neg_neg]
    have h2 : 0 ≤ Int.tdiv (-bits) 2 := Int.tdiv_nonneg (by omega) (by norm_num)
    omega
  have hk : Int.tdiv bits 2 = bits / 2 := Int.tdiv_eq_ediv hbits (by norm_num)
  constructor
  · intro hlt
    by_contra h18
    have hsmall : (Int.tdiv bits 2).toNat ≤ 8 := by rw [hk]; omega
    have hpow : (2 : Int) ^ (Int.tdiv bits 2).toNat ≤ 2 ^ 8 :=
      pow_le_pow_right₀ (by norm_num) hsmall
    have hp255 : p ≤ 255 := by omega
    have hq255 : q ≤ 255 := by omega
    have hp3 : 3 ≤ p := by
      have : (1 : Int) ≤ 2 ^ ((Int.tdiv bits 2).toNat - 2) := one_le_pow₀ (by norm_num)
      omega
    have hq3 : 3 ≤ q := by
      have : (1 : Int) ≤ 2 ^ ((Int.tdiv bits 2).toNat - 2) := one_le_pow₀ (by norm_num)
      omega
    nlinarith
  · intro h18
    have hbig : 7 ≤ (Int.tdiv bits 2).toNat - 2 := by rw [hk]; omega
    have hpow : (2 : Int) ^ 7 ≤ 2 ^ ((Int.tdiv bits 2).toNat - 2) :=
      pow_le_pow_right₀ (by norm_num) hbig
    have hp384 : 384 ≤ p := by omega
    have hq384 : 384 ≤ q := by omega
    nlinarith

/-- Witness of C10 as amended: `bits = 4`, both calls deliver 3. -/
theorem NewRSAKey_exponent_range_witness :
    (1 : Int) < (⟨9, 65537, 1⟩ : RSAKey).E ∧ 0 < (⟨9, 65537, 1⟩ : RSAKey).D ∧
      ((⟨9, 65537, 1⟩ : RSAKey).E < ((3 : Int) - 1) * (3 - 1) ↔ (18 : Int) ≤ 4) :=
  NewRSAKey_exponent_range (fun _ => some 3) 4 0 2 ⟨9, 65537, 1⟩ 3 3 (by decide) rfl rfl
    (by decide) (by decide)

/-! ## Benchmark harness: the specification's properties -/

theorem benchLoop_done {σ F : Type} (ops : FloatOps F) (operation : σ → Option σ)
    (clock : Nat → Int) (iterations : Int) (fuel : Nat) (i : Int) (b : Bench σ F)
    (h : ¬ i < iterations) :
    benchLoop ops operation clock iterations fuel i b = .ok b := by
  unfold benchLoop
  rw [if_neg h]

/-- With an operation that returns on every state, the loop started at index `i` with
`fuel` iterations to go performs exactly `fuel` further calls and appends their samples in
call order. -/
theorem benchLoop_spec {σ F : Type} (ops : FloatOps F) (operation : σ → Option σ)
    (f : σ → σ) (hop : ∀ s, operation s = some (f s)) (clock : Nat → Int) (n : Nat) :
    ∀ (fuel i : Nat) (b : Bench σ F), i + fuel = n →
      benchLoop ops operation clock (n : Int) fuel (i : Int) b =
        .ok { state := f^[fuel] b.state, calls := b.calls + fuel,
              reads := b.reads + 2 * fuel,
              times := b.times ++ (List.range fuel).map (sampleAt ops clock b.reads) } := by
  intro fuel
  induction fuel with
  | zero =>
    intro i b hi
    rw [benchLoop_done ops operation clock n 0 i b (by omega)]
    simp
  | succ k ih =>
    intro i b hi
    have hlt : (i : Int) < (n : Int) := by omega
    rw [benchLoop, if_pos hlt]
    simp only [hop]
    have hcast : ((i : Int) + 1) = ((i + 1 : Nat) : Int) := by omega
    rw [hcast, ih (i + 1) _ (by omega)]
    congr 1
    have hstate : f^[k] (f b.state) = f^[k + 1] b.state := rfl
    have hcalls : b.calls + 1 + k = b.calls + (k + 1) := by omega
    have hreads : b.reads + 2 + 2 * k = b.reads + 2 * (k + 1) := by omega
    have htimes : b.times ++ [ops.ofInt (clock (b.reads + 1) - clock b.reads)] ++
          (List.range k).map (sampleAt ops clock (b.reads + 2))
        = b.times ++ (List.range (k + 1)).map (sampleAt ops clock b.reads) := by
      rw [List.range_succ_eq_map, List.map_cons, List.map_map, List.append_assoc]
      congr 1
      have e0 : sampleAt ops clock b.reads 0
          = ops.ofInt (clock (b.reads + 1) - clock b.reads) := rfl
      have e1 : sampleAt ops clock (b.reads + 2)
          = sampleAt ops clock b.reads ∘ Nat.succ := by
        funext j
        simp only [sampleAt, Function.comp]
        have h1 : b.reads + 2 + 2 * j + 1 = b.reads + 2 * j.succ + 1 := by omega
        have h2 : b.reads + 2 + 2 * j = b.reads + 2 * j.succ := by omega
        rw [h1, h2]
      rw [e0, e1]
      rfl
    rw [hstate, hcalls, hreads, htimes]

/-- C7: statistics over zero samples fail.  For every operation, `runBenchmark` called with
`iterations ≤ 0` does not return a statistics map: it aborts on the index expression
`times[0]`, and so does the statistics part on an empty slice. -/
theorem runBenchmark_no_samples {σ F : Type} (ops : FloatOps F) (operation : σ → Option σ)
    (clock : Nat → Int) (iterations : Int) (init : σ) (reads : Nat) (h : iterations ≤ 0) :
    runBenchmark ops operation clock iterations init reads = .error .indexOutOfRange ∧
      computeStats ops ([] : List F) = .error .indexOutOfRange := by
  constructor
  · unfold runBenchmark
    rw [benchLoop_done ops operation clock iterations _ 0 _ (by omega)]
    rfl
  · rfl

/-- Witness of C7: zero iterations of an operation that counts its calls. -/
theorem runBenchmark_no_samples_witness :
    runBenchmark intOps (fun s : Nat => some (s + 1)) (fun k => 10 * k) 0 0 0
        = .error .indexOutOfRange ∧
      computeStats intOps ([] : List Int) = .error .indexOutOfRange :=
  runBenchmark_no_samples intOps (fun s : Nat => some (s + 1)) (fun k => 10 * k) 0 0 0
    (by decide)

/-- C8: for every `n ≥ 0` and every operation that returns, the measuring loop of
`runBenchmark(operation, n, name)` invokes `operation` exactly `n` times, one after
another, and collects exactly `n` samples, the sample number `i` being the time between
the two clock readings that enclose call number `i`; for `n ≥ 1` this is the state in
which `runBenchmark` returns. -/
theorem benchLoop_calls_and_samples {σ F : Type} (ops : FloatOps F)
    (operation : σ → Option σ) (f : σ → σ) (hop : ∀ s, operation s = some (f s))
    (clock : Nat → Int) (iterations : Int) (hn : 0 ≤ iterations) (init : σ) (reads : Nat) :
    ∃ b, benchLoop ops operation clock iterations iterations.toNat 0
          { state := init, calls := 0, reads := reads, times := [] } = .ok b ∧
      b.calls = iterations.toNat ∧ b.state = f^[iterations.toNat] init ∧
      b.reads = reads + 2 * iterations.toNat ∧
      b.times.length = iterations.toNat ∧
      (∀ i, i < iterations.toNat →
        b.times[i]? = some (ops.ofInt (clock (reads + 2 * i + 1) - clock (reads + 2 * i)))) ∧
      (0 < iterations →
        ∃ stats, runBenchmark ops operation clock iterations init reads = .ok (stats, b)) := by
  obtain ⟨n, rfl⟩ := Int.eq_ofNat_of_zero_le hn
  have h := benchLoop_spec ops operation f hop clock n n 0
    { state := init, calls := 0, reads := reads, times := [] } (by omega)
  rw [Nat.cast_zero] at h
  rw [Int.toNat_natCast]
  refine ⟨_, h, ?_, rfl, rfl, ?_, ?_, ?_⟩
  · simp
  · simp
  · intro i hi
    simp [hi, sampleAt]
  · intro hpos
    have hn0 : 0 < n := by omega
    unfold runBenchmark
    rw [Int.toNat_natCast, h]
    simp only [List.nil_append]
    obtain ⟨k, rfl⟩ : ∃ k, n = k + 1 := ⟨n - 1, by omega⟩
    rw [List.range_succ_eq_map, List.map_cons]
    exact ⟨_, rfl⟩

/-- Witness of C8: three iterations of an operation that counts its calls, with the clock
reading `k * k` at reading number `k`; the samples are `1 - 0`, `9 - 4` and `25 - 16`. -/
theorem benchLoop_calls_and_samples_witness :
    benchLoop intOps (fun s : Nat => some (s + 1)) (fun k => (k : Int) * k) 3
        (3 : Int).toNat 0 { state := 0, calls := 0, reads := 0, times := [] }
      = .ok { state := 3, calls := 3, reads := 6, times := [1, 5, 9] } ∧
    ∃ b, benchLoop intOps (fun s : Nat => some (s + 1)) (fun k => (k : Int) * k) 3
          (3 : Int).toNat 0 { state := 0, calls := 0, reads := 0, times := [] } = .ok b ∧
      b.calls = (3 : Int).toNat :=
  ⟨by decide,
    (benchLoop_calls_and_samples intOps (fun s : Nat => some (s + 1)) (fun s => s + 1)
      (fun _ => rfl) (fun k => (k : Int) * k) 3 (by decide) 0 0).imp
      (fun _ hb => ⟨hb.1, hb.2.1⟩)⟩

/-! ## References: `modPow` leaves the caller's objects unchanged -/

theorem Heap.read_eq {h : Heap} {a : Addr} {v : Int} (hv : h[a]? = some v) :
    Heap.read h a = .ok v := by
  unfold Heap.read
  rw [hv]

theorem Heap.get_append {h : Heap} {a : Addr} {v : Int} (hv : h[a]? = some v) (t : Heap) :
    (h ++ t)[a]? = some v := by
  have hlt : a < h.length := (List.getElem?_eq_some.mp hv).1
  rw [List.getElem?_append_left hlt, hv]

theorem Heap.lt_length {h : Heap} {a : Nat} {v : Int} (hv : h[a]? = some v) :
    a < h.length := (List.getElem?_eq_some.mp hv).1

theorem Heap.get_alloc (h : Heap) (v : Int) : (h ++ [v])[h.length]? = some v :=
  List.getElem?_concat_length h v

theorem Heap.prefix_set {h0 h : Heap} {a : Addr} (hp : h0 <+: h) (ha : h0.length ≤ a)
    (v : Int) : h0 <+: h.set a v := by
  obtain ⟨t, rfl⟩ := hp
  rw [List.set_append_right a v ha]
  exact List.prefix_append _ _

theorem Heap.get_set_ne {h : Heap} {a b : Addr} {w : Int} (hb : h[b]? = some w)
    (hne : b ≠ a) (v : Int) : (h.set a v)[b]? = some w := by
  rw [List.getElem?_set_ne (Ne.symm hne), hb]

theorem Heap.get_set_self {h : Heap} {a : Addr} {w : Int} (ha : h[a]? = some w) (v : Int) :
    (h.set a v)[a]? = some v :=
  List.getElem?_set_self (Heap.lt_length ha)

theorem mulMod_eq {h : Heap} {x y modulus : Addr} {xv yv mv : Int}
    (hx : h[x]? = some xv) (hy : h[y]? = some yv) (hm : h[modulus]? = some mv)
    (hmv : mv ≠ 0) :
    mulMod h x y modulus = .ok (h.length + 1, h ++ [xv * yv] ++ [(xv * yv) % mv]) := by
  unfold mulMod
  rw [Heap.read_eq hx, Heap.read_eq hy]
  simp only [Heap.alloc]
  rw [Heap.read_eq (Heap.get_append hm _)]
  simp only [if_neg hmv, List.length_append, List.length_singleton]

theorem Agrees.error (h0 : Heap) (f : Failure) : Agrees h0 (.error f) (.error f) := by
  unfold Agrees
  rfl

theorem Agrees.ok {h0 h : Heap} {r : Addr} {v : Int} (hp : h0 <+: h) (hr : h[r]? = some v) :
    Agrees h0 (.ok v) (.ok (r, h)) := by
  unfold Agrees
  exact ⟨hp, hr⟩

theorem Heap.get_of_prefix {h h' : Heap} {a : Addr} {v : Int} (hp : h <+: h')
    (hv : h[a]? = some v) : h'[a]? = some v := by
  obtain ⟨t, rfl⟩ := hp
  exact Heap.get_append hv t

/-- The two allocations of `mulMod` extend the heap, and the object returned is new. -/
theorem mulMod_spec {h : Heap} {x y modulus : Addr} {xv yv mv : Int}
    (hx : h[x]? = some xv) (hy : h[y]? = some yv) (hm : h[modulus]? = some mv)
    (hmv : mv ≠ 0) :
    ∃ r h', mulMod h x y modulus = .ok (r, h') ∧ h <+: h' ∧
      h'[r]? = some ((xv * yv) % mv) ∧ h.length ≤ r := by
  refine ⟨_, _, mulMod_eq hx hy hm hmv, ?_, ?_, by omega⟩
  · rw [List.append_assoc]
    exact List.prefix_append _ _
  · have := Heap.get_alloc (h ++ [xv * yv]) ((xv * yv) % mv)
    rw [List.length_append, List.length_singleton] at this
    exact this

/-- The loop on references agrees with the loop on values, and the objects of the caller's
heap `h0` are never written: every write goes to `exp`, allocated after `h0`. -/
theorem modPowRefLoop_agrees (h0 : Heap) (modulus : Addr) (mv : Int) (hmv : mv ≠ 0) :
    ∀ (fuel : Nat) (h : Heap) (result base exp : Addr) (rv bv ev : Int),
      h0 <+: h → h0.length ≤ exp → h[result]? = some rv → h[base]? = some bv →
      h[exp]? = some ev → h[modulus]? = some mv → result ≠ exp → base ≠ exp →
      modulus ≠ exp →
      Agrees h0 (modPowLoop fuel rv bv ev mv)
        (modPowRefLoop fuel h result base exp modulus) := by
  intro fuel
  induction fuel with
  | zero =>
    intro h result base exp rv bv ev hp hexp0 hr hb he hm _ _ _
    rw [modPowLoop, modPowRefLoop]
    simp only [Heap.alloc]
    rw [Heap.read_eq (Heap.get_append he _)]
    by_cases hpos : ev > 0
    · simp only [if_pos hpos]
      exact Agrees.error h0 _
    · simp only [if_neg hpos]
      exact Agrees.ok (hp.trans (List.prefix_append _ _)) (Heap.get_append hr _)
  | succ k ih =>
    intro h result base exp rv bv ev hp hexp0 hr hb he hm hre hbe hme
    rw [modPowLoop, modPowRefLoop]
    simp only [Heap.alloc]
    rw [Heap.read_eq (Heap.get_append he _)]
    by_cases hpos : ev > 0
    · simp only [if_pos hpos]
      obtain ⟨hA, hAdef, hpA⟩ : ∃ hA, h ++ [0] ++ [1] ++ [Int.land ev 1] ++ [1] = hA ∧
          h <+: hA :=
        ⟨_, rfl, by simp only [List.append_assoc]; exact List.prefix_append _ _⟩
      rw [hAdef]
      have hexpA : exp < hA.length := Heap.lt_length (Heap.get_of_prefix hpA he)
      obtain ⟨r1, hB, hstep, hpB, hr1, hr1e⟩ : ∃ r1 hB,
          (if Int.land ev 1 = 1 then mulMod hA result base modulus
            else Except.ok (result, hA)) = .ok (r1, hB) ∧ hA <+: hB ∧
          hB[r1]? = some (if Int.land ev 1 = 1 then (rv * bv) % mv else rv) ∧
          r1 ≠ exp := by
        by_cases hodd : Int.land ev 1 = 1
        · obtain ⟨r, h', heq, hpre, hget, hlen⟩ :=
            mulMod_spec (Heap.get_of_prefix hpA hr) (Heap.get_of_prefix hpA hb)
              (Heap.get_of_prefix hpA hm) hmv
          exact ⟨r, h', by rw [if_pos hodd, heq], hpre, by rw [if_pos hodd, hget],
            Nat.ne_of_gt (Nat.lt_of_lt_of_le hexpA hlen)⟩
        · exact ⟨result, hA, by rw [if_neg hodd], List.prefix_refl _,
            by rw [if_neg hodd]; exact Heap.get_of_prefix hpA hr, hre⟩
      rw [hstep]
      simp only [Heap.write]
      have hAB : h <+: hB := hpA.trans hpB
      have hbC : (hB.set exp (Int.shiftRight ev 1))[base]? = some bv :=
        Heap.get_set_ne (Heap.get_of_prefix hAB hb) hbe _
      have hmC : (hB.set exp (Int.shiftRight ev 1))[modulus]? = some mv :=
        Heap.get_set_ne (Heap.get_of_prefix hAB hm) hme _
      obtain ⟨b1, hD, hsq, hpD, hb1, hb1len⟩ := mulMod_spec hbC hbC hmC hmv
      rw [hsq]
      simp only []
      have hlenC : (hB.set exp (Int.shiftRight ev 1)).length = hB.length :=
        List.length_set _ _ _
      have hexpB : exp < hB.length := Heap.lt_length (Heap.get_of_prefix hAB he)
      refine ih hD r1 b1 exp _ _ _ ?_ hexp0 ?_ hb1 ?_ ?_ hr1e ?_ hme
      · exact (Heap.prefix_set (hp.trans hAB) hexp0 _).trans hpD
      · exact Heap.get_of_prefix hpD (Heap.get_set_ne hr1 hr1e _)
      · exact Heap.get_of_prefix hpD (Heap.get_set_self (Heap.get_of_prefix hAB he) _)
      · exact Heap.get_of_prefix hpD hmC
      · exact Nat.ne_of_gt (Nat.lt_of_lt_of_le (hlenC ▸ hexpB) hb1len)
    · simp only [if_neg hpos]
      exact Agrees.ok (hp.trans (List.prefix_append _ _)) (Heap.get_append hr _)

/-- The function `modPow` on references agrees with `modPow` on the values its three
arguments point to, whether or not the arguments alias one another. -/
theorem modPowRef_agrees (h : Heap) (base exponent modulus : Addr) (bv ev mv : Int)
    (hb : h[base]? = some bv) (he : h[exponent]? = some ev) (hm : h[modulus]? = some mv) :
    Agrees h (modPow bv ev mv) (modPowRef h base exponent modulus) := by
  unfold modPow modPowRef
  simp only [Heap.alloc]
  rw [Heap.read_eq (Heap.get_append hm _)]
  simp only []
  by_cases h1 : mv = 1
  · rw [if_pos h1, if_pos h1]
    refine Agrees.ok ?_ (Heap.get_alloc _ _)
    rw [List.append_assoc]
    exact List.prefix_append _ _
  · rw [if_neg h1, if_neg h1]
    rw [Heap.read_eq (Heap.get_append (Heap.get_append hb _) _)]
    simp only []
    by_cases h0 : mv = 0
    · rw [if_pos h0, if_pos h0]
      exact Agrees.error h _
    · rw [if_neg h0, if_neg h0]
      rw [Heap.read_eq (Heap.get_append (Heap.get_append (Heap.get_append he _) _) _)]
      simp only []
      have hmlt := Heap.lt_length hm
      refine modPowRefLoop_agrees h modulus mv h0 ev.toNat _ _ _ _ 1 (bv % mv) ev
        ?_ ?_ ?_ ?_ ?_ ?_ ?_ ?_ ?_
      · simp only [List.append_assoc]
        exact List.prefix_append _ _
      · simp only [List.length_append, List.length_singleton]
        omega
      · exact Heap.get_append (Heap.get_append (Heap.get_alloc _ _) _) _
      · exact Heap.get_append (Heap.get_alloc _ _) _
      · exact Heap.get_alloc _ _
      · exact Heap.get_append (Heap.get_append (Heap.get_append (Heap.get_append hm _) _) _) _
      · refine Nat.ne_of_lt ?_
        simp only [List.length_append, List.length_singleton]
        omega
      · refine Nat.ne_of_lt ?_
        simp only [List.length_append, List.length_singleton]
        omega
      · refine Nat.ne_of_lt ?_
        simp only [List.length_append, List.length_singleton]
        omega

theorem Agrees.ok_inv {h0 : Heap} {v : Int} {x : Except Failure (Addr × Heap)}
    (hx : Agrees h0 (.ok v) x) : ∃ r h, x = .ok (r, h) ∧ h0 <+: h ∧ h[r]? = some v := by
  unfold Agrees at hx
  match x, hx with
  | .ok (r, h), hx => exact ⟨r, h, rfl, hx.1, hx.2⟩

/-- A call that, on every heap extending `h0`, returns an object holding `v` and extends
the heap it was given, returns `v` on each of `n` calls in a row. -/
theorem repeatCall_replicate (op : Heap → Except Failure (Addr × Heap)) (h0 : Heap) (v : Int)
    (hop : ∀ h, h0 <+: h → Agrees h (.ok v) (op h)) :
    ∀ (n : Nat) (h : Heap), h0 <+: h →
      ∃ h', repeatCall op n h = .ok (List.replicate n v, h') ∧ h <+: h' := by
  intro n
  induction n with
  | zero =>
    intro h _
    exact ⟨h, rfl, List.prefix_refl _⟩
  | succ k ih =>
    intro h hp
    obtain ⟨r, h1, hcall, hp1, hr⟩ := (hop h hp).ok_inv
    obtain ⟨h2, hrest, hp2⟩ := ih h1 (hp.trans hp1)
    refine ⟨h2, ?_, hp1.trans hp2⟩
    rw [repeatCall, hcall]
    simp only []
    rw [Heap.read_eq hr]
    simp only []
    rw [hrest]
    rfl

/-! ## Determinism under reuse -/

/-- C11: determinism under reuse.  For every key and message held in `big.Int` objects of
the caller, `Encrypt` and `Decrypt` on the pointers return an object holding the value
computed from the values pointed to (or abort in the same way), every object that existed
before the call keeps its value, in particular the message, `key.E` or `key.D`, and
`key.N`, and any number of calls in a row on the same key and message return the same
value each time. -/
theorem encrypt_decrypt_deterministic (h : Heap) (message : Addr) (key : RSAKeyRef)
    (m n e d : Int) (hm : h[message]? = some m) (hN : h[key.N]? = some n)
    (hE : h[key.E]? = some e) (hD : h[key.D]? = some d) :
    Agrees h (Encrypt m ⟨n, e, d⟩) (EncryptRef h message key) ∧
      Agrees h (Decrypt m ⟨n, e, d⟩) (DecryptRef h message key) ∧
      (∀ v, Encrypt m ⟨n, e, d⟩ = .ok v → ∀ k, ∃ h',
        repeatCall (fun g => EncryptRef g message key) k h = .ok (List.replicate k v, h') ∧
          h <+: h' ∧ h'[message]? = some m ∧ h'[key.E]? = some e ∧ h'[key.N]? = some n) ∧
      (∀ v, Decrypt m ⟨n, e, d⟩ = .ok v → ∀ k, ∃ h',
        repeatCall (fun g => DecryptRef g message key) k h = .ok (List.replicate k v, h') ∧
          h <+: h' ∧ h'[message]? = some m ∧ h'[key.D]? = some d ∧ h'[key.N]? = some n) := by
  refine ⟨modPowRef_agrees h message key.E key.N m e n hm hE hN,
    modPowRef_agrees h message key.D key.N m d n hm hD hN, ?_, ?_⟩
  · intro v hv k
    have hop : ∀ g, h <+: g → Agrees g (.ok v) (EncryptRef g message key) := by
      intro g hg
      have := modPowRef_agrees g message key.E key.N m e n (Heap.get_of_prefix hg hm)
        (Heap.get_of_prefix hg hE) (Heap.get_of_prefix hg hN)
      unfold Encrypt at hv
      rw [hv] at this
      exact this
    obtain ⟨h', hrun, hp⟩ := repeatCall_replicate _ h v hop k h (List.prefix_refl _)
    exact ⟨h', hrun, hp, Heap.get_of_prefix hp hm, Heap.get_of_prefix hp hE,
      Heap.get_of_prefix hp hN⟩
  · intro v hv k
    have hop : ∀ g, h <+: g → Agrees g (.ok v) (DecryptRef g message key) := by
      intro g hg
      have := modPowRef_agrees g message key.D key.N m d n (Heap.get_of_prefix hg hm)
        (Heap.get_of_prefix hg hD) (Heap.get_of_prefix hg hN)
      unfold Decrypt at hv
      rw [hv] at this
      exact this
    obtain ⟨h', hrun, hp⟩ := repeatCall_replicate _ h v hop k h (List.prefix_refl _)
    exact ⟨h', hrun, hp, Heap.get_of_prefix hp hm, Heap.get_of_prefix hp hD,
      Heap.get_of_prefix hp hN⟩

/-- Witness of C11: the key of the concrete scenario in the objects 1, 2, 3 of the heap and
the message 12345 in object 0; three calls of `Encrypt` in a row return 41476 each. -/
theorem encrypt_decrypt_deterministic_witness :
    Encrypt 12345 ⟨60491, 17, 42353⟩ = .ok 41476 ∧
      ∃ h', repeatCall (fun g => EncryptRef g 0 ⟨1, 2, 3⟩) 3 [12345, 60491, 17, 42353]
          = .ok (List.replicate 3 41476, h') ∧
        [12345, 60491, 17, 42353] <+: h' ∧ h'[0]? = some 12345 ∧ h'[2]? = some 17 ∧
        h'[1]? = some 60491 :=
  ⟨by decide,
    (encrypt_decrypt_deterministic [12345, 60491, 17, 42353] 0 ⟨1, 2, 3⟩ 12345 60491 17 42353
      rfl rfl rfl rfl).2.2.1 41476 (by decide) 3⟩

/-! ## The statistics of `runBenchmark` -/

/-- The scan of lines 45-52 returns two samples, and no sample seen is below the first or
above the second, for a comparison that is irreflexive and transitive on the samples. -/
theorem minMax_fold {F : Type} (ops : FloatOps F) (ts : List F)
    (hirr : ∀ a ∈ ts, ops.lt a a = false)
    (htrans : ∀ a ∈ ts, ∀ b ∈ ts, ∀ c ∈ ts,
      ops.lt a b = true → ops.lt b c = true → ops.lt a c = true) :
    ∀ (l seen : List F) (mm : F × F), (∀ t ∈ l, t ∈ ts) → mm.1 ∈ ts → mm.2 ∈ ts →
      (∀ s ∈ seen, s ∈ ts ∧ ops.lt s mm.1 = false ∧ ops.lt mm.2 s = false) →
      (l.foldl (fun (mm : F × F) t =>
          (if ops.lt t mm.1 then t else mm.1, if ops.lt mm.2 t then t else mm.2)) mm).1 ∈ ts ∧
      (l.foldl (fun (mm : F × F) t =>
          (if ops.lt t mm.1 then t else mm.1, if ops.lt mm.2 t then t else mm.2)) mm).2 ∈ ts ∧
      ∀ s, (s ∈ seen ∨ s ∈ l) →
        ops.lt s (l.foldl (fun (mm : F × F) t =>
          (if ops.lt t mm.1 then t else mm.1, if ops.lt mm.2 t then t else mm.2)) mm).1
            = false ∧
        ops.lt (l.foldl (fun (mm : F × F) t =>
          (if ops.lt t mm.1 then t else mm.1, if ops.lt mm.2 t then t else mm.2)) mm).2 s
            = false := by
  intro l
  induction l with
  | nil =>
    intro seen mm _ h1 h2 hseen
    refine ⟨h1, h2, ?_⟩
    intro s hs
    rcases hs with hs | hs
    · exact (hseen s hs).2
    · cases hs
  | cons t l ih =>
    intro seen mm hl h1 h2 hseen
    have ht : t ∈ ts := hl t (List.mem_cons_self _ _)
    have hl' : ∀ x ∈ l, x ∈ ts := fun x hx => hl x (List.mem_cons_of_mem _ hx)
    rw [List.foldl_cons]
    have hmin : (if ops.lt t mm.1 = true then t else mm.1) ∈ ts := by
      split
      · exact ht
      · exact h1
    have hmax : (if ops.lt mm.2 t = true then t else mm.2) ∈ ts := by
      split
      · exact ht
      · exact h2
    have hseen' : ∀ s ∈ t :: seen, s ∈ ts ∧
        ops.lt s (if ops.lt t mm.1 = true then t else mm.1) = false ∧
        ops.lt (if ops.lt mm.2 t = true then t else mm.2) s = false := by
      intro s hs
      have hsts : s ∈ ts := by
        rcases List.mem_cons.mp hs with rfl | hs'
        · exact ht
        · exact (hseen s hs').1
      refine ⟨hsts, ?_, ?_⟩
      · by_cases hc : ops.lt t mm.1 = true
        · rw [if_pos hc]
          rcases List.mem_cons.mp hs with rfl | hs'
          · exact hirr _ ht
          · cases hst : ops.lt s t with
            | false => rfl
            | true =>
              have := htrans s hsts t ht mm.1 h1 hst hc
              rw [(hseen s hs').2.1] at this
              exact this.symm
        · rw [if_neg hc]
          rcases List.mem_cons.mp hs with rfl | hs'
          · exact Bool.eq_false_iff.mpr hc
          · exact (hseen s hs').2.1
      · by_cases hc : ops.lt mm.2 t = true
        · rw [if_pos hc]
          rcases List.mem_cons.mp hs with rfl | hs'
          · exact hirr _ ht
          · cases hst : ops.lt t s with
            | false => rfl
            | true =>
              have := htrans mm.2 h2 t ht s hsts hc hst
              rw [(hseen s hs').2.2] at this
              exact this.symm
        · rw [if_neg hc]
          rcases List.mem_cons.mp hs with rfl | hs'
          · exact Bool.eq_false_iff.mpr hc
          · exact (hseen s hs').2.2
    obtain ⟨r1, r2, r3⟩ := ih (t :: seen)
      (if ops.lt t mm.1 = true then t else mm.1, if ops.lt mm.2 t = true then t else mm.2)
      hl' hmin hmax hseen'
    refine ⟨r1, r2, ?_⟩
    intro s hs
    apply r3
    rcases hs with hs | hs
    · exact Or.inl (List.mem_cons_of_mem _ hs)
    · rcases List.mem_cons.mp hs with rfl | hs'
      · exact Or.inl (List.mem_cons_self _ _)
      · exact Or.inr hs'

/-- On a non-empty slice the statistics are returned, and they are the source's folds. -/
theorem computeStats_cons {F : Type} (ops : FloatOps F) (t0 : F) (rest : List F) :
    computeStats ops (t0 :: rest) =
      .ok { mean_ns := ops.div ((t0 :: rest).foldl ops.add ops.zero)
              (ops.ofInt (t0 :: rest).length),
            std_dev_ns := ops.sqrt (ops.div
              ((t0 :: rest).foldl (fun v t => ops.add v
                (ops.mul
                  (ops.sub t (ops.div ((t0 :: rest).foldl ops.add ops.zero)
                    (ops.ofInt (t0 :: rest).length)))
                  (ops.sub t (ops.div ((t0 :: rest).foldl ops.add ops.zero)
                    (ops.ofInt (t0 :: rest).length))))) ops.zero)
              (ops.ofInt (t0 :: rest).length)),
            min_ns := ((t0 :: rest).foldl (fun (mm : F × F) t =>
              (if ops.lt t mm.1 then t else mm.1, if ops.lt mm.2 t then t else mm.2))
              (t0, t0)).1,
            max_ns := ((t0 :: rest).foldl (fun (mm : F × F) t =>
              (if ops.lt t mm.1 then t else mm.1, if ops.lt mm.2 t then t else mm.2))
              (t0, t0)).2,
            total_ns := (t0 :: rest).foldl ops.add ops.zero } := rfl

/-- A map returned by `runBenchmark` is the statistics of the slice the loop collected. -/
theorem runBenchmark_ok_stats {σ F : Type} (ops : FloatOps F) (operation : σ → Option σ)
    (clock : Nat → Int) (iterations : Int) (init : σ) (reads : Nat) (st : Stats F)
    (b : Bench σ F)
    (h : runBenchmark ops operation clock iterations init reads = .ok (st, b)) :
    computeStats ops b.times = .ok st := by
  unfold runBenchmark at h
  cases hloop : benchLoop ops operation clock iterations iterations.toNat 0
      { state := init, calls := 0, reads := reads, times := [] } with
  | error f =>
    rw [hloop] at h
    exact Except.noConfusion h
  | ok b' =>
    rw [hloop] at h
    simp only [] at h
    cases hst : computeStats ops b'.times with
    | error f =>
      rw [hst] at h
      exact Except.noConfusion h
    | ok st' =>
      rw [hst] at h
      have hpair := Except.ok.inj h
      have h1 : st' = st := congrArg Prod.fst hpair
      have h2 : b' = b := congrArg Prod.snd hpair
      rw [← h1, ← h2]
      exact hst

/-- The running sum over a constant slice, when every partial sum is computed exactly. -/
theorem foldl_add_replicate {F : Type} (ops : FloatOps F) (v : Int) :
    ∀ (j k : Nat),
      (∀ i : Nat, k ≤ i → i < k + j →
        ops.add (ops.ofInt (i * v)) (ops.ofInt v) = ops.ofInt ((i + 1 : Nat) * v)) →
      (List.replicate j (ops.ofInt v)).foldl ops.add (ops.ofInt (k * v))
        = ops.ofInt ((k + j : Nat) * v) := by
  intro j
  induction j with
  | zero =>
    intro k _
    rfl
  | succ j ih =>
    intro k hk
    rw [List.replicate_succ, List.foldl_cons, hk k le_rfl (by omega), ih (k + 1)]
    · have : k + 1 + j = k + (j + 1) := by omega
      rw [this]
    · intro i h1 h2
      exact hk i (by omega) (by omega)

/-- The sum of squared deviations over a constant slice whose deviation from the mean is
computed as zero. -/
theorem foldl_variance_replicate {F : Type} (ops : FloatOps F) (x m : F)
    (hsub : ops.sub x m = ops.zero) (hmul : ops.mul ops.zero ops.zero = ops.zero)
    (hadd : ops.add ops.zero ops.zero = ops.zero) :
    ∀ j : Nat,
      (List.replicate j x).foldl
        (fun acc t => ops.add acc (ops.mul (ops.sub t m) (ops.sub t m))) ops.zero
        = ops.zero := by
  intro j
  induction j with
  | zero => rfl
  | succ j ih =>
    rw [List.replicate_succ, List.foldl_cons, hsub, hmul, hadd, ih]

/-- C6, amended: for every non-empty sequence of samples collected by `runBenchmark`, the
returned map holds `total_ns`, the `float64` sum of the samples accumulated from 0 in call
order; `mean_ns = total_ns / float64(n)`; `std_dev_ns`, the square root of the `float64`
sum of the `(t_i - mean_ns)^2` divided by `float64(n)`, the divisor being `n` and not
`n - 1`; `min_ns`, a sample that no sample is below, and `max_ns`, a sample that no sample
is above.  A constant sequence gives minimum and maximum `v`; it gives the total
`float64(n * v)`, the mean `v` and the standard deviation 0 when the partial sums and the
quotient are computed without rounding. -/
theorem runBenchmark_statistics {F : Type} (ops : FloatOps F) (times : List F)
    (hne : times ≠ [])
    (hirr : ∀ a ∈ times, ops.lt a a = false)
    (htrans : ∀ a ∈ times, ∀ b ∈ times, ∀ c ∈ times,
      ops.lt a b = true → ops.lt b c = true → ops.lt a c = true) :
    ∃ stats, computeStats ops times = .ok stats ∧
      (∀ (σ : Type) (operation : σ → Option σ) (clock : Nat → Int) (iterations : Int)
        (init : σ) (reads : Nat) (st : Stats F) (b : Bench σ F),
        runBenchmark ops operation clock iterations init reads = .ok (st, b) →
        b.times = times → st = stats) ∧
      stats.total_ns = times.foldl ops.add ops.zero ∧
      stats.mean_ns = ops.div stats.total_ns (ops.ofInt times.length) ∧
      stats.std_dev_ns = ops.sqrt (ops.div
        (times.foldl (fun acc t => ops.add acc
          (ops.mul (ops.sub t stats.mean_ns) (ops.sub t stats.mean_ns))) ops.zero)
        (ops.ofInt times.length)) ∧
      stats.min_ns ∈ times ∧ (∀ t ∈ times, ops.lt t stats.min_ns = false) ∧
      stats.max_ns ∈ times ∧ (∀ t ∈ times, ops.lt stats.max_ns t = false) ∧
      (∀ x, (∀ t ∈ times, t = x) → stats.min_ns = x ∧ stats.max_ns = x) ∧
      (∀ v : Int, (∀ t ∈ times, t = ops.ofInt v) →
        ops.zero = ops.ofInt 0 →
        (∀ k : Nat, k < times.length →
          ops.add (ops.ofInt (k * v)) (ops.ofInt v) = ops.ofInt ((k + 1 : Nat) * v)) →
        ops.div (ops.ofInt (times.length * v)) (ops.ofInt times.length) = ops.ofInt v →
        ops.sub (ops.ofInt v) (ops.ofInt v) = ops.zero →
        ops.mul ops.zero ops.zero = ops.zero →
        ops.add ops.zero ops.zero = ops.zero →
        ops.div ops.zero (ops.ofInt times.length) = ops.zero →
        ops.sqrt ops.zero = ops.zero →
        stats.total_ns = ops.ofInt (times.length * v) ∧ stats.mean_ns = ops.ofInt v ∧
          stats.std_dev_ns = ops.zero) := by
  cases times with
  | nil => exact absurd rfl hne
  | cons t0 rest =>
    obtain ⟨hmin, hmax, hbound⟩ := minMax_fold ops (t0 :: rest) hirr htrans (t0 :: rest) []
      (t0, t0) (fun _ h => h) (List.mem_cons_self _ _) (List.mem_cons_self _ _)
      (fun s hs => by cases hs)
    refine ⟨_, computeStats_cons ops t0 rest, ?_, rfl, rfl, rfl, hmin,
      fun t ht => (hbound t (Or.inr ht)).1, hmax, fun t ht => (hbound t (Or.inr ht)).2,
      fun x hx => ⟨hx _ hmin, hx _ hmax⟩, ?_⟩
    · intro σ operation clock iterations init reads st b hrun htimes
      have h := runBenchmark_ok_stats ops operation clock iterations init reads st b hrun
      rw [htimes, computeStats_cons] at h
      exact (Except.ok.inj h).symm
    · intro v hconst hz hsum hdiv hsub hmul hadd hdiv0 hsqrt
      have hrep : t0 :: rest = List.replicate (t0 :: rest).length (ops.ofInt v) :=
        List.eq_replicate_iff.mpr ⟨rfl, hconst⟩
      have htotal : (t0 :: rest).foldl ops.add ops.zero
          = ops.ofInt (((t0 :: rest).length : Nat) * v) := by
        have h0 := foldl_add_replicate ops v (t0 :: rest).length 0
          (fun i _ hi => hsum i (by omega))
        rw [← hrep] at h0
        rw [hz]
        simpa using h0
      have hmean : ops.div ((t0 :: rest).foldl ops.add ops.zero)
          (ops.ofInt (t0 :: rest).length) = ops.ofInt v := by
        rw [htotal]
        exact hdiv
      refine ⟨htotal, hmean, ?_⟩
      show ops.sqrt (ops.div _ _) = ops.zero
      rw [hmean]
      have hvar := foldl_variance_replicate ops (ops.ofInt v) (ops.ofInt v) hsub hmul hadd
        (t0 :: rest).length
      rw [← hrep] at hvar
      rw [hvar, hdiv0, hsqrt]

/-! ### Rounding on a constant sequence: `v = 3 * 2 ^ 52 + 4`, `n = 3` -/

set_option maxRecDepth 2000 in
theorem F64.ofInt_v : F64.ofInt (3 * 2 ^ 52 + 4) = .finite 6755399441055746 1 := by decide

set_option maxRecDepth 2000 in
theorem F64.ofInt_three : F64.ofInt 3 = .finite 6755399441055744 (-51) := by decide

set_option maxRecDepth 2000 in
theorem F64.sum_step1 : F64.add F64.zero (.finite 6755399441055746 1)
    = .finite 6755399441055746 1 := by decide

set_option maxRecDepth 2000 in
theorem F64.sum_step2 : F64.add (.finite 6755399441055746 1) (.finite 6755399441055746 1)
    = .finite 6755399441055746 2 := by decide

set_option maxRecDepth 2000 in
theorem F64.sum_step3 : F64.add (.finite 6755399441055746 2) (.finite 6755399441055746 1)
    = .finite 5066549580791810 3 := by decide

set_option maxRecDepth 2000 in
theorem F64.mean_step : F64.div (.finite 5066549580791810 3) (.finite 6755399441055744 (-51))
    = .finite 6755399441055747 1 := by decide

set_option maxRecDepth 2000 in
theorem F64.dev_step : F64.sub (.finite 6755399441055746 1) (.finite 6755399441055747 1)
    = .finite (-4503599627370496) (-51) := by decide

set_option maxRecDepth 2000 in
theorem F64.sq_step : F64.mul (.finite (-4503599627370496) (-51))
    (.finite (-4503599627370496) (-51)) = .finite 4503599627370496 (-50) := by decide

set_option maxRecDepth 2000 in
theorem F64.var_step1 : F64.add F64.zero (.finite 4503599627370496 (-50))
    = .finite 4503599627370496 (-50) := by decide

set_option maxRecDepth 2000 in
theorem F64.var_step2 : F64.add (.finite 4503599627370496 (-50))
    (.finite 4503599627370496 (-50)) = .finite 4503599627370496 (-49) := by decide

set_option maxRecDepth 2000 in
theorem F64.var_step3 : F64.add (.finite 4503599627370496 (-49))
    (.finite 4503599627370496 (-50)) = .finite 6755399441055744 (-49) := by decide

set_option maxRecDepth 2000 in
theorem F64.var_div : F64.div (.finite 6755399441055744 (-49)) (.finite 6755399441055744 (-51))
    = .finite 4503599627370496 (-50) := by decide

set_option maxRecDepth 2000 in
theorem F64.std_step : F64.sqrt (.finite 4503599627370496 (-50))
    = .finite 4503599627370496 (-51) := by decide

theorem F64.lt_v : F64.lt (.finite 6755399441055746 1) (.finite 6755399441055746 1)
    = false := by decide

theorem computeStats_rounding :
    computeStats binary64 (List.replicate 3 (F64.finite 6755399441055746 1))
      = .ok { mean_ns := .finite 6755399441055747 1,
              std_dev_ns := .finite 4503599627370496 (-51),
              min_ns := .finite 6755399441055746 1,
              max_ns := .finite 6755399441055746 1,
              total_ns := .finite 5066549580791810 3 } := by
  have hlen : (((0 + 1 + 1 + 1 : Nat) : Nat) : Int) = 3 := rfl
  simp only [List.replicate, computeStats, binary64, List.foldl, List.length, hlen,
    F64.ofInt_three,
    F64.sum_step1, F64.sum_step2, F64.sum_step3, F64.mean_step, F64.dev_step, F64.sq_step,
    F64.var_step1, F64.var_step2, F64.var_step3, F64.var_div, F64.std_step, F64.lt_v,
    Bool.false_eq_true, if_false]

set_option maxRecDepth 2000 in
theorem samples_rounding :
    (List.range 3).map (sampleAt binary64
        (fun k => (((k + 1) / 2 : Nat) : Int) * (3 * 2 ^ 52 + 4)) 0)
      = List.replicate 3 (F64.finite 6755399441055746 1) := by decide

/-- Counterexample to C6 as stated: three calls that each take `3 * 2 ^ 52 + 4` nanoseconds
give the constant samples `v = float64(3 * 2 ^ 52 + 4)`, and `runBenchmark` returns the
mean `3 * 2 ^ 52 + 6` and the standard deviation 2, not `v` and 0: the third partial sum
and the quotient are rounded. -/
theorem runBenchmark_constant_counterexample :
    (∃ b, runBenchmark binary64 (fun s : Unit => some s)
          (fun k => (((k + 1) / 2 : Nat) : Int) * (3 * 2 ^ 52 + 4)) 3 () 0
        = .ok ({ mean_ns := binary64.ofInt (3 * 2 ^ 52 + 6),
                 std_dev_ns := binary64.ofInt 2,
                 min_ns := binary64.ofInt (3 * 2 ^ 52 + 4),
                 max_ns := binary64.ofInt (3 * 2 ^ 52 + 4),
                 total_ns := binary64.ofInt (9 * 2 ^ 52 + 16) }, b) ∧
        b.times = List.replicate 3 (binary64.ofInt (3 * 2 ^ 52 + 4))) ∧
      binary64.ofInt (3 * 2 ^ 52 + 6) ≠ binary64.ofInt (3 * 2 ^ 52 + 4) ∧
      binary64.ofInt 2 ≠ binary64.zero := by
  have hloop := benchLoop_spec binary64 (fun s : Unit => some s) (fun s => s) (fun _ => rfl)
    (fun k => (((k + 1) / 2 : Nat) : Int) * (3 * 2 ^ 52 + 4)) 3 3 0
    { state := (), calls := 0, reads := 0, times := [] } (by omega)
  rw [samples_rounding] at hloop
  have e1 : binary64.ofInt (3 * 2 ^ 52 + 6) = F64.finite 6755399441055747 1 := by decide
  have e2 : binary64.ofInt 2 = F64.finite 4503599627370496 (-51) := by decide
  have e3 : binary64.ofInt (3 * 2 ^ 52 + 4) = F64.finite 6755399441055746 1 := by decide
  have e4 : binary64.ofInt (9 * 2 ^ 52 + 16) = F64.finite 5066549580791810 3 := by decide
  rw [e1, e2, e3, e4]
  refine ⟨⟨Bench.mk () 3 6 (List.replicate 3 (F64.finite 6755399441055746 1)), ?_, rfl⟩,
    by decide, by decide⟩
  unfold runBenchmark
  have h3 : ((3 : Nat) : Int) = 3 := rfl
  have h0 : ((0 : Nat) : Int) = 0 := rfl
  rw [h3, h0] at hloop
  rw [show (3 : Int).toNat = 3 from rfl, hloop]
  simp only [List.nil_append]
  rw [computeStats_rounding]

set_option maxRecDepth 4000 in
/-- Witness of C6 as amended: three samples of 12345 nanoseconds, where every partial sum
and the quotient are exact; the map holds mean 12345, deviation 0, minimum and maximum
12345 and total 37035. -/
theorem runBenchmark_statistics_witness :
    ∃ stats, computeStats binary64 (List.replicate 3 (binary64.ofInt 12345)) = .ok stats ∧
      stats.min_ns = binary64.ofInt 12345 ∧ stats.max_ns = binary64.ofInt 12345 ∧
      stats.total_ns = binary64.ofInt 37035 ∧ stats.mean_ns = binary64.ofInt 12345 ∧
      stats.std_dev_ns = binary64.zero := by
  obtain ⟨stats, hok, _, _, _, _, _, _, _, _, hconst, hexact⟩ :=
    runBenchmark_statistics binary64 (List.replicate 3 (binary64.ofInt 12345))
      (by decide) (by decide) (by decide)
  have hall : ∀ t ∈ List.replicate 3 (binary64.ofInt 12345), t = binary64.ofInt 12345 :=
    fun t ht => List.eq_of_mem_replicate ht
  obtain ⟨h1, h2, h3⟩ := hexact 12345 hall (by decide) (by decide) (by decide) (by decide)
    (by decide) (by decide) (by decide) (by decide)
  exact ⟨stats, hok, (hconst _ hall).1, (hconst _ hall).2, h1, h2, h3⟩

end RSAManual
